import Mathlib

/-!
# FileManagerPro — verification of the filesystem core

Shallow embedding of the path handling, permission rendering, copy/delete/mkdir
logic and command dispatch of the FileManagerPro repository
(`src/Installer/GUI/Logic/`), together with proofs and refutations of the
frozen specification claims.

Paths are modelled as lists of characters (the C code works on NUL-terminated
`char` buffers); machine integers (`mode_t`) are modelled as `Nat` with
explicit bit masking.
-/

namespace FMPro

/-- A filesystem path: the character content of a C `char*` buffer. -/
abbrev Path := List Char

/-- `PATH_MAX` from `<limits.h>` on Linux. -/
def PATH_MAX : Nat := 4096

/-! ## Splitting and joining paths

`normalize_path` (file_utils.c:227) tokenises the buffer with
`strtok(temp, "/")`.  `csplit` cuts a character list at every `'/'`,
keeping empty pieces; `strtok`'s behaviour of skipping empty tokens is
reproduced by the `collapse` loop below, which discards empty components. -/
/-- Split a character list at `'/'` separators.  Pieces may be empty
(`strtok` later discards them). -/
def csplit : Path → List Path
  | [] => [[]]
  | c :: cs =>
    if c = '/' then [] :: csplit cs
    else
      match csplit cs with
      | [] => [[c]]
      | t :: ts => (c :: t) :: ts

/-- Join components with `'/'` separators — the assembly loop of
`normalize_path` (`strncat` of component, `"/"` between components). -/
def cjoin : List Path → Path
  | [] => []
  | [c] => c
  | c :: cs => c ++ '/' :: cjoin cs

/-- The separator-replacement loop of `normalize_path`:
`if (*p == '\\') *p = '/';`. -/
def deback (p : Path) : Path := p.map (fun c => if c = '\\' then '/' else c)

/-- The token-processing loop of `normalize_path`: `".."` pops the most recent
component (`comp_count--`), `"."` and empty tokens are skipped, other tokens
are pushed; the loop exits outright once `comp_count` reaches 256
(`while (token != NULL && comp_count < 256)`).  The accumulator holds the
components most-recent-first. -/
def collapse (stack : List Path) : List Path → List Path
  | [] => stack
  | t :: ts =>
    if stack.length ≥ 256 then stack
    else if t = ['.', '.'] then collapse (stack.drop 1) ts
    else if t = ['.'] ∨ t = [] then collapse stack ts
    else collapse (t :: stack) ts

/-- The component list produced by `normalize_path`'s processing phase.  The
input is first truncated to `PATH_MAX - 1` characters
(`strncpy(temp, path, sizeof(temp) - 1)`), backslashes are replaced, the
result is tokenised and collapsed. -/
def normComps (p : Path) : List Path :=
  (collapse [] (csplit (deback (p.take (PATH_MAX - 1))))).reverse

/-- `normalize_path` (file_utils.c:227-263).  The assembly phase `strncat`s the
components with `"/"` separators into a `PATH_MAX` buffer — sequential
size-capped appends amount to a prefix truncation of the full join at
`size - 1` characters — and substitutes `"."` for an empty result. -/
def normalize_path (p : Path) : Path :=
  let comps := normComps p
  let r := (cjoin comps).take (PATH_MAX - 1)
  if r = [] then ['.'] else r

/-! ## Path safety: `is_safe_path` (file_utils.c:540-576)

The function also consults the live filesystem: `realpath(path, ...)` followed
by an `lstat` symlink test.  That check is modelled by an environment
parameter `brokenLink : Path → Bool`, true when `realpath` fails on the path
and `lstat` reports a symbolic link (a dangling symlink). -/
/-- `strstr(path, needle) != NULL`: some suffix of `p` starts with `needle`. -/
def hasSub (p needle : Path) : Bool :=
  p.tails.any (fun t => needle.isPrefixOf t)

/-- The inner per-component scan of `has_dangerous_chars`: a component is
flagged when it embeds a `'/'` (the NUL case cannot occur in the character
content of a C string). -/
def componentHasBad (c : Path) : Bool := c.any (fun ch => ch = '/')

/-- `has_dangerous_chars` (file_utils.c:465-510).  For every character that is
not a separator, NUL or control character, when the path contains a `'/'` the
function scans each slash-separated component (intermediate components only
when nonempty and shorter than `NAME_MAX`; the final component whenever
nonempty) for an embedded separator. -/
def has_dangerous_chars (p : Path) : Bool :=
  p.any (fun ch =>
    if ch = '/' ∨ ch.toNat < 32 then false
    else if p.contains '/' then
      ((csplit p).dropLast.any (fun comp =>
        decide (comp ≠ []) && decide (comp.length < 255) && componentHasBad comp))
      || (match (csplit p).getLast? with
          | some last => decide (last ≠ []) && componentHasBad last
          | none => false)
    else false)

/-- The denylist of system-directory prefixes in `is_safe_path`. -/
def systemPaths : List Path :=
  [("/bin/" : String).data, ("/sbin/" : String).data,
   ("/usr/bin/" : String).data, ("/usr/sbin/" : String).data,
   ("/etc/" : String).data, ("/boot/" : String).data,
   ("/lib/" : String).data, ("/lib64/" : String).data,
   ("/root/" : String).data, ("/var/log/" : String).data,
   ("/proc/" : String).data, ("/sys/" : String).data]

/-- `is_safe_path` (file_utils.c:540-576), with the filesystem-dependent
symlink test abstracted as `brokenLink`. -/
def is_safe_path (brokenLink : Path → Bool) (p : Path) : Bool :=
  if hasSub p ("../" : String).data then false
  else if brokenLink p then false
  else if has_dangerous_chars p then false
  else if systemPaths.any (fun sp => sp.isPrefixOf p) then false
  else true

/-- Claim-side reading of C1's first disjunct, from the spec's words: the
normalized path "contains an escaping `../` above its logical root", i.e. a
`".."` path component survived normalization. -/
def specEscapesRoot (p : Path) : Bool :=
  (csplit p).any (fun c => c = ['.', '.'])

/-- Claim-side reading of C1's second disjunct: the path begins with a
configured denylisted system-directory prefix. -/
def specDenylisted (p : Path) : Bool :=
  systemPaths.any (fun sp => sp.isPrefixOf p)

/-! ## Permission strings (C9)

`mode_t` is modelled as `Nat`; the POSIX mode bits are the Linux values. -/
def S_IFMT : Nat := 0o170000

def S_IFSOCK : Nat := 0o140000

def S_IFLNK : Nat := 0o120000

def S_IFBLK : Nat := 0o060000

def S_IFDIR : Nat := 0o040000

def S_IFCHR : Nat := 0o020000

def S_IFIFO : Nat := 0o010000

def S_ISUID : Nat := 0o4000

def S_ISGID : Nat := 0o2000

def S_ISVTX : Nat := 0o1000

def S_IRUSR : Nat := 0o400

def S_IWUSR : Nat := 0o200

def S_IXUSR : Nat := 0o100

def S_IRGRP : Nat := 0o40

def S_IWGRP : Nat := 0o20

def S_IXGRP : Nat := 0o10

def S_IROTH : Nat := 0o4

def S_IWOTH : Nat := 0o2

def S_IXOTH : Nat := 0o1

def S_ISDIR (m : Nat) : Prop := m &&& S_IFMT = S_IFDIR

def S_ISLNK (m : Nat) : Prop := m &&& S_IFMT = S_IFLNK

def S_ISFIFO (m : Nat) : Prop := m &&& S_IFMT = S_IFIFO

def S_ISSOCK (m : Nat) : Prop := m &&& S_IFMT = S_IFSOCK

def S_ISCHR (m : Nat) : Prop := m &&& S_IFMT = S_IFCHR

def S_ISBLK (m : Nat) : Prop := m &&& S_IFMT = S_IFBLK

instance (m : Nat) : Decidable (S_ISDIR m) := by unfold S_ISDIR; infer_instance

instance (m : Nat) : Decidable (S_ISLNK m) := by unfold S_ISLNK; infer_instance

instance (m : Nat) : Decidable (S_ISFIFO m) := by unfold S_ISFIFO; infer_instance

instance (m : Nat) : Decidable (S_ISSOCK m) := by unfold S_ISSOCK; infer_instance

instance (m : Nat) : Decidable (S_ISCHR m) := by unfold S_ISCHR; infer_instance

instance (m : Nat) : Decidable (S_ISBLK m) := by unfold S_ISBLK; infer_instance

/-- `permissions_to_string` (file_utils.c:299-317): full type-character chain,
rwx triplets, then the special bits overwrite positions 3, 6 and 9. -/
def permissions_to_string (m : Nat) : List Char :=
  let c0 := if S_ISDIR m then 'd' else if S_ISLNK m then 'l'
    else if S_ISFIFO m then 'p' else if S_ISSOCK m then 's'
    else if S_ISCHR m then 'c' else if S_ISBLK m then 'b' else '-'
  let c1 := if m &&& S_IRUSR ≠ 0 then 'r' else '-'
  let c2 := if m &&& S_IWUSR ≠ 0 then 'w' else '-'
  let c3 := if m &&& S_IXUSR ≠ 0 then 'x' else '-'
  let c4 := if m &&& S_IRGRP ≠ 0 then 'r' else '-'
  let c5 := if m &&& S_IWGRP ≠ 0 then 'w' else '-'
  let c6 := if m &&& S_IXGRP ≠ 0 then 'x' else '-'
  let c7 := if m &&& S_IROTH ≠ 0 then 'r' else '-'
  let c8 := if m &&& S_IWOTH ≠ 0 then 'w' else '-'
  let c9 := if m &&& S_IXOTH ≠ 0 then 'x' else '-'
  let c3 := if m &&& S_ISUID ≠ 0 then (if m &&& S_IXUSR ≠ 0 then 's' else 'S') else c3
  let c6 := if m &&& S_ISGID ≠ 0 then (if m &&& S_IXGRP ≠ 0 then 's' else 'S') else c6
  let c9 := if m &&& S_ISVTX ≠ 0 then (if m &&& S_IXOTH ≠ 0 then 't' else 'T') else c9
  [c0, c1, c2, c3, c4, c5, c6, c7, c8, c9]

/-- `FileNavigator::get_permissions_string` (navigator.cpp:82-105): a string
of ten dashes whose positions are assigned in turn, with the special-bit
overlays applied last by position. -/
def nav_get_permissions_string (m : Nat) : List Char :=
  let perms := List.replicate 10 '-'
  let perms := perms.set 0 (if S_ISDIR m then 'd' else if S_ISLNK m then 'l'
    else if S_ISFIFO m then 'p' else if S_ISSOCK m then 's'
    else if S_ISCHR m then 'c' else if S_ISBLK m then 'b' else '-')
  let perms := perms.set 1 (if m &&& S_IRUSR ≠ 0 then 'r' else '-')
  let perms := perms.set 2 (if m &&& S_IWUSR ≠ 0 then 'w' else '-')
  let perms := perms.set 3 (if m &&& S_IXUSR ≠ 0 then 'x' else '-')
  let perms := perms.set 4 (if m &&& S_IRGRP ≠ 0 then 'r' else '-')
  let perms := perms.set 5 (if m &&& S_IWGRP ≠ 0 then 'w' else '-')
  let perms := perms.set 6 (if m &&& S_IXGRP ≠ 0 then 'x' else '-')
  let perms := perms.set 7 (if m &&& S_IROTH ≠ 0 then 'r' else '-')
  let perms := perms.set 8 (if m &&& S_IWOTH ≠ 0 then 'w' else '-')
  let perms := perms.set 9 (if m &&& S_IXOTH ≠ 0 then 'x' else '-')
  let perms := if m &&& S_ISUID ≠ 0 then
    perms.set 3 (if m &&& S_IXUSR ≠ 0 then 's' else 'S') else perms
  let perms := if m &&& S_ISGID ≠ 0 then
    perms.set 6 (if m &&& S_IXGRP ≠ 0 then 's' else 'S') else perms
  let perms := if m &&& S_ISVTX ≠ 0 then
    perms.set 9 (if m &&& S_IXOTH ≠ 0 then 't' else 'T') else perms
  perms

/-- `get_permissions_string` (file_ops.c:28-40): the type character is only
`d`/`l`/`-` and **no** setuid/setgid/sticky overlays are applied. -/
def get_permissions_string (m : Nat) : List Char :=
  [if S_ISDIR m then 'd' else if S_ISLNK m then 'l' else '-',
   if m &&& S_IRUSR ≠ 0 then 'r' else '-',
   if m &&& S_IWUSR ≠ 0 then 'w' else '-',
   if m &&& S_IXUSR ≠ 0 then 'x' else '-',
   if m &&& S_IRGRP ≠ 0 then 'r' else '-',
   if m &&& S_IWGRP ≠ 0 then 'w' else '-',
   if m &&& S_IXGRP ≠ 0 then 'x' else '-',
   if m &&& S_IROTH ≠ 0 then 'r' else '-',
   if m &&& S_IWOTH ≠ 0 then 'w' else '-',
   if m &&& S_IXOTH ≠ 0 then 'x' else '-']

/-- Claim-side rendering of one rwx triplet, from the spec's words: `r`/`w`
markers and an execute slot carrying the `s/S` (resp. `t/T`) overlay when the
special bit is set. -/
def specTriplet (r w x special : Prop) [Decidable r] [Decidable w]
    [Decidable x] [Decidable special] (lo hi : Char) : List Char :=
  [if r then 'r' else '-', if w then 'w' else '-',
   if special then (if x then lo else hi) else (if x then 'x' else '-')]

/-- Claim-side permission string: file-type character followed by three rwx
triplets with the setuid/setgid/sticky overlays at positions 3, 6 and 9. -/
def spec_permission_string (m : Nat) : List Char :=
  (if S_ISDIR m then 'd' else if S_ISLNK m then 'l'
    else if S_ISFIFO m then 'p' else if S_ISSOCK m then 's'
    else if S_ISCHR m then 'c' else if S_ISBLK m then 'b' else '-') ::
  specTriplet (m &&& S_IRUSR ≠ 0) (m &&& S_IWUSR ≠ 0) (m &&& S_IXUSR ≠ 0)
    (m &&& S_ISUID ≠ 0) 's' 'S' ++
  specTriplet (m &&& S_IRGRP ≠ 0) (m &&& S_IWGRP ≠ 0) (m &&& S_IXGRP ≠ 0)
    (m &&& S_ISGID ≠ 0) 's' 'S' ++
  specTriplet (m &&& S_IROTH ≠ 0) (m &&& S_IWOTH ≠ 0) (m &&& S_IXOTH ≠ 0)
    (m &&& S_ISVTX ≠ 0) 't' 'T'

/-! ## Command dispatch and the process exit code (C8)

`main` (main.cpp:107-166) and `FileNavigator::execute_command`
(navigator.cpp:302-328).  The command handlers perform filesystem work and
produce JSON strings; for the exit-code claim only the dispatch skeleton
matters, so the handlers are an environment parameter. -/
/-- The command vocabulary of `FileNavigator::execute_command`. -/
def knownCommands : List String :=
  ["list", "cd", "search", "info", "mkdir", "delete", "copy", "move",
   "rename", "pwd", "diskinfo"]

/-- `FileNavigator::execute_command`: a known command is routed to its
handler; any other command word produces the unknown-command error payload.
The function itself never throws. -/
def execute_command (handlers : String → List String → String)
    (command : String) (args : List String) : String :=
  if command ∈ knownCommands then handlers command args
  else "\x7b\"error\":\"Unknown command: " ++ command ++ "\"\x7d"

/-- Outcome of one dispatch call as observed by `main`'s try/catch blocks:
either a result string is produced or an exception escapes. -/
inductive Dispatch where
  | ok (json : String) : Dispatch
  | thrown (msg : String) : Dispatch
deriving DecidableEq

/-- `main` (main.cpp:107-166).  Library initialisation cannot affect the exit
code.  Fewer than two `argv` entries prints help and returns 1; the special
flags return 0; any other command word is dispatched inside try/catch,
returning 0 when a result string is printed and 1 when an exception escapes. -/
def mainExitCode (exec : String → List String → Dispatch) :
    List String → Nat
  | [] => 1
  | [_] => 1
  | _ :: command :: rest =>
    if command = "--help" ∨ command = "-h" ∨ command = "help" then 0
    else if command = "--version" ∨ command = "-v" then 0
    else if command = "--lib-status" then 0
    else
      match exec command rest with
      | .ok _ => 0
      | .thrown _ => 1

/-! ## Directory enumeration and the sort contract (C6)

`FileNavigator::get_directory_contents` (navigator.cpp:116-211): the raw
`readdir` stream (arbitrary order) is filtered of `"."`/`".."`, each entry is
`lstat`ed into a `FileItem`, and the vector is sorted with the comparator of
lines 200-208.  `std::sort` with a strict-weak-order comparator is modelled
by an insertion sort producing a comparator-sorted permutation. -/
/-- The `lstat`-determined class of one directory entry (link-preserving, so
a symlink is reported as a symlink, never as its referent). -/
inductive EKind where
  | directory : EKind
  | symlink : EKind
  | file : EKind
deriving DecidableEq

/-- The `FileItem.type` string assigned at navigator.cpp:150-166. -/
def typeStr : EKind → List Char
  | .directory => ("directory" : String).data
  | .symlink => ("symlink" : String).data
  | .file => ("file" : String).data

/-- One entry as delivered by `readdir` + `lstat`: its name, its
link-preserving class, and its `st_size`. -/
structure RawEntry where
  name : Path
  kind : EKind
  size : Int
deriving DecidableEq

/-- The fields of `FileItem` relevant to the enumeration contract. -/
structure FileItem where
  name : Path
  path : Path
  type : List Char
  size : Int
deriving DecidableEq

/-- Construction of one `FileItem` (navigator.cpp:133-176): the path is the
directory path joined with the name (no doubled slash under the root), the
type string encodes the class, directories and symlinks get size 0. -/
def mkItem (dirPath : Path) (e : RawEntry) : FileItem :=
  { name := e.name
    path := if dirPath = ['/'] then dirPath ++ e.name else dirPath ++ '/' :: e.name
    type := typeStr e.kind
    size := match e.kind with | .file => e.size | _ => 0 }

/-- `std::string::operator<`: character-wise lexicographic comparison. -/
def lexLt : Path → Path → Bool
  | [], [] => false
  | [], _ :: _ => true
  | _ :: _, [] => false
  | a :: as, b :: bs => if a < b then true else if b < a then false else lexLt as bs

/-- The sort comparator of navigator.cpp:200-208. -/
def itemLt (a b : FileItem) : Bool :=
  if a.type = b.type then lexLt a.name b.name
  else if a.type = typeStr .directory ∧ b.type ≠ typeStr .directory then true
  else if a.type = typeStr .symlink ∧ b.type = typeStr .file then true
  else false

/-- The comparator-induced weak order used to state sortedness: `a` need not
precede `b` strictly, merely not follow it. -/
def itemLe (a b : FileItem) : Prop := itemLt b a = false

instance (a b : FileItem) : Decidable (itemLe a b) := by
  unfold itemLe; infer_instance

/-- Ordered insertion (the effect of one `std::sort` placement). -/
def insertItem (a : FileItem) : List FileItem → List FileItem
  | [] => [a]
  | b :: l => if itemLt b a then b :: insertItem a l else a :: b :: l

/-- Comparator-sorted permutation, modelling `std::sort` with `itemLt`. -/
def sortItems : List FileItem → List FileItem
  | [] => []
  | a :: l => insertItem a (sortItems l)

/-- `FileNavigator::get_directory_contents`: skip `"."`/`".."`, build the
items, sort with the comparator. -/
def get_directory_contents (dirPath : Path) (raw : List RawEntry) :
    List FileItem :=
  sortItems ((raw.filter
    (fun e => e.name ≠ ['.'] ∧ e.name ≠ ['.', '.'])).map (mkItem dirPath))

/-- Validity invariant: every item built by `mkItem` carries one of the three
type strings of navigator.cpp. -/
def validItem (it : FileItem) : Prop :=
  it.type = typeStr .directory ∨ it.type = typeStr .symlink ∨
    it.type = typeStr .file

/-- Rank of a type string in the binding sort contract: directories first,
then symlinks, then files. -/
def rankOf (t : List Char) : Nat :=
  if t = typeStr .directory then 0
  else if t = typeStr .symlink then 1 else 2

/-! ## A flat filesystem model (copy and mkdir operations)

The kernel filesystem visible to `lstat`/`open`/`mkdir`/`symlink` is
modelled as a finite map from paths to nodes.  Symbolic-link targets are
interpreted as names in the same namespace (absolute-target links), and
link-chain resolution is fuel-bounded. -/
/-- Errno values used by the modelled syscalls (Linux). -/
def ENOENT : Nat := 2

def EEXIST : Nat := 17

def ENOTDIR : Nat := 20

def EISDIR : Nat := 21

def ENOTEMPTY : Nat := 39

def ELOOP : Nat := 40

/-- One filesystem node as distinguished by `lstat`. -/
inductive SNode where
  | file (content : List Nat) : SNode
  | dir : SNode
  | symlink (target : Path) : SNode
deriving DecidableEq

/-- A filesystem: an association list from paths to nodes, first match wins. -/
abbrev FS := List (Path × SNode)

def lookupFS (fs : FS) (p : Path) : Option SNode :=
  match fs.find? (fun e => decide (e.1 = p)) with
  | some e => some e.2
  | none => none

/-- Create or replace the node at `p` (`mkdir`, `symlink`, `open(O_CREAT)`). -/
def setFS (fs : FS) (p : Path) (n : SNode) : FS := (p, n) :: fs

/-- Follow a chain of symlinks, fuel-bounded, returning the final
non-symlink path (which may not exist — creation targets resolve too). -/
def resolveFS (fs : FS) : Nat → Path → Option Path
  | 0, _ => none
  | fuel + 1, p =>
    match lookupFS fs p with
    | some (.symlink t) => resolveFS fs fuel t
    | _ => some p

/-- `access(p, F_OK)`: existence after following symlinks. -/
def accessF (fs : FS) (fuel : Nat) (p : Path) : Bool :=
  match resolveFS fs fuel p with
  | some q => (lookupFS fs q).isSome
  | none => false

/-- The prefix of `p` before its last `'/'` (the `strrchr`/`find_last_of`
truncation); `none` when `p` has no separator. -/
def parentOf (p : Path) : Option Path :=
  if '/' ∈ p then
    some (((p.reverse.dropWhile (fun c => ¬ c = '/')).drop 1).reverse)
  else none

/-- `mkdir(2)` on the model: `EEXIST` when any node exists at the path,
`ENOENT`/`ENOTDIR` when the named parent is missing or not a directory
(a parent of `[]` stands for the root, which always exists); otherwise the
directory is created. -/
def sys_mkdir (fs : FS) (p : Path) : FS × Option Nat :=
  if (lookupFS fs p).isSome then (fs, some EEXIST)
  else
    match parentOf p with
    | none => (setFS fs p .dir, none)
    | some par =>
      if par = [] then (setFS fs p .dir, none)
      else
        match lookupFS fs par with
        | some .dir => (setFS fs p .dir, none)
        | some _ => (fs, some ENOTDIR)
        | none => (fs, some ENOENT)

/-- Read through `open(p, O_RDONLY)`/`fopen(p, "rb")`: follow symlinks, then
require a regular file at the final path. -/
def readFileFS (fs : FS) (fuel : Nat) (p : Path) : Option (List Nat) :=
  match resolveFS fs fuel p with
  | none => none
  | some q =>
    match lookupFS fs q with
    | some (.file content) => some content
    | _ => none

/-- Write through `open(p, O_WRONLY|O_CREAT|O_TRUNC)`/`fopen(p, "wb")`:
follow symlinks, then create or truncate the regular file at the final
path (a directory there is an error). -/
def writeFileFS (fs : FS) (fuel : Nat) (p : Path) (content : List Nat) :
    Option FS :=
  match resolveFS fs fuel p with
  | none => none
  | some q =>
    match lookupFS fs q with
    | some .dir => none
    | _ => some (setFS fs q (.file content))

/-! ## `n8n_copy_file` and `n8n_batch_copy` (file_utils.c) -/
/-- `N8N_CopyOptions` (file_utils.c:38-44).  Timestamps, permission bits and
ownership are not part of the modelled node state; the flags are carried for
the record. -/
structure CopyOptions where
  overwrite : Bool
  preserveTimestamps : Bool
  createDestDir : Bool
  preservePermissions : Bool
  preserveOwner : Bool
deriving DecidableEq

/-- The `success`/`errorCode` fields of `N8N_Result` (file_utils.c:21-27). -/
structure NResult where
  success : Bool
  errorCode : Nat
deriving DecidableEq

/-- `n8n_copy_file` (file_utils.c:1017-1147).  `lstat` the source (a missing
source fails); without `overwrite`, an existing destination (via `access`,
which follows links) fails `EEXIST`; `createDestDir` `mkdir`s the
`strrchr`-truncated destination prefix ignoring the result; then a symlink
source is recreated with `readlink` + `symlink` (never reading the referent),
a directory source just creates the destination directory, and a regular
file is streamed into the destination. -/
def n8n_copy_file (fuel : Nat) (fs : FS) (source destination : Path)
    (options : CopyOptions) : FS × NResult :=
  match lookupFS fs source with
  | none => (fs, ⟨false, ENOENT⟩)
  | some srcNode =>
    if options.overwrite = false ∧ accessF fs fuel destination = true then
      (fs, ⟨false, EEXIST⟩)
    else
      let fs1 := if options.createDestDir then
          match parentOf destination with
          | some par => (sys_mkdir fs par).1
          | none => fs
        else fs
      match srcNode with
      | .symlink t =>
        if (lookupFS fs1 destination).isSome then (fs1, ⟨false, EEXIST⟩)
        else (setFS fs1 destination (.symlink t), ⟨true, 0⟩)
      | .dir =>
        match sys_mkdir fs1 destination with
        | (fs2, none) => (fs2, ⟨true, 0⟩)
        | (fs2, some e) => (fs2, ⟨false, e⟩)
      | .file content =>
        match writeFileFS fs1 fuel destination content with
        | none => (fs1, ⟨false, EISDIR⟩)
        | some fs2 => (fs2, ⟨true, 0⟩)

/-- The aggregate outcome of `n8n_batch_copy`: the per-item flags in order
and the two counters.  The envelope's `success` field is initialised `true`
and is never cleared by item failures. -/
structure BatchResult where
  success : Bool
  results : List Bool
  successCount : Nat
  failCount : Nat
deriving DecidableEq

/-- `n8n_batch_copy` (file_utils.c:1150-1184): apply `n8n_copy_file` to every
source/destination pair in order, record one flag per pair, count successes
and failures; no item failure stops the loop. -/
def n8n_batch_copy (fuel : Nat) (fs : FS) (pairs : List (Path × Path))
    (options : CopyOptions) : FS × BatchResult :=
  match pairs with
  | [] => (fs, ⟨true, [], 0, 0⟩)
  | (src, dst) :: rest =>
    let step := n8n_copy_file fuel fs src dst options
    let tail := n8n_batch_copy fuel step.1 rest options
    (tail.1, ⟨true, step.2.success :: tail.2.results,
      (if step.2.success then 1 else 0) + tail.2.successCount,
      (if step.2.success then 0 else 1) + tail.2.failCount⟩)

/-! ## `FileNavigator::copy_item` / `copy_directory` (navigator.cpp) -/
/-- Does `q` name a direct child of directory path `p` (used to model
`readdir` over the flat map)? -/
def isChildOf (p q : Path) : Bool :=
  p.isPrefixOf q &&
    match q.drop p.length with
    | '/' :: rest => decide (rest ≠ []) && decide ('/' ∉ rest)
    | _ => false

/-- The `readdir` stream of directory `p` in the flat model. -/
def childrenFS (fs : FS) (p : Path) : List (Path × SNode) :=
  fs.filter (fun e => isChildOf p e.1)

mutual

/-- `FileNavigator::copy_item` (navigator.cpp:625-689).  The source is
`lstat`ed (missing source fails); a directory source without the `-r` flag
fails; a directory delegates to `copy_directory`; **any other source —
including a symlink — is opened with `open(src, O_RDONLY)`, which follows
the link, and the referent's bytes are streamed into
`open(dst, O_WRONLY|O_CREAT|O_TRUNC)`**.  Fuel bounds recursion depth and
link chains. -/
def copy_item_go : Nat → FS → Path → Path → Bool → FS × Bool
  | 0, fs, _, _, _ => (fs, false)
  | fuel + 1, fs, src, dst, recursive =>
    match lookupFS fs src with
    | none => (fs, false)
    | some .dir =>
      if recursive then copy_directory_go fuel fs src dst else (fs, false)
    | some _ =>
      match readFileFS fs fuel src with
      | none => (fs, false)
      | some content =>
        match writeFileFS fs fuel dst content with
        | none => (fs, false)
        | some fs' => (fs', true)

/-- `FileNavigator::copy_directory` (navigator.cpp:691-732): create the
destination directory (tolerating `EEXIST`), then copy every child —
subdirectories recursively, everything else through `copy_item` — aborting
the subtree on the first failure. -/
def copy_directory_go : Nat → FS → Path → Path → FS × Bool
  | 0, fs, _, _ => (fs, false)
  | fuel + 1, fs, src, dst =>
    let r := sys_mkdir fs dst
    if r.2 = none ∨ r.2 = some EEXIST then
      copy_children_go fuel r.1 (childrenFS r.1 src) src dst
    else (fs, false)

/-- The `readdir` loop of `copy_directory`. -/
def copy_children_go : Nat → FS → List (Path × SNode) → Path → Path →
    FS × Bool
  | 0, fs, _, _, _ => (fs, false)
  | _ + 1, fs, [], _, _ => (fs, true)
  | fuel + 1, fs, (q, n) :: rest, src, dst =>
    let name := q.drop (src.length + 1)
    let step := match n with
      | .dir => copy_directory_go fuel fs q (dst ++ '/' :: name)
      | _ => copy_item_go fuel fs q (dst ++ '/' :: name) false
    if step.2 then copy_children_go fuel step.1 rest src dst
    else (step.1, false)

end

/-! ## `mkdir` — `FileNavigator::create_directory` / `mkdir_recursive` (C3) -/
/-- Outcome of a navigator command, standing for its JSON result object:
the success payload or the error payload carrying the failing `errno`. -/
inductive CmdOut where
  | ok (payload : Path) : CmdOut
  | err (errno : Nat) : CmdOut
deriving DecidableEq

/-- `FileNavigator::get_absolute_path` (navigator.cpp:260-287): empty input
yields the current path, a leading `'/'` is returned unchanged, `"."` yields
the current path, `".."` cuts the current path at its last `'/'` (the root
when that slash is at position 0, the whole string when there is none), and
anything else is joined to the current path. -/
def get_absolute_path (current_path p : Path) : Path :=
  if p = [] then current_path
  else if p.head? = some '/' then p
  else if p = ['.'] then current_path
  else if p = ['.', '.'] then
    if '/' ∈ current_path then
      let pre := ((current_path.reverse.dropWhile (fun c => ¬ c = '/')).drop 1).reverse
      if pre = [] then ['/'] else pre
    else current_path
  else if current_path = ['/'] then current_path ++ p
  else current_path ++ '/' :: p

/-- The prefixes `path.substr(0, pos)` visited by `mkdir_recursive`'s loop:
one for every `'/'` at position ≥ 1, in increasing position order. -/
def slashPrefixes (p : Path) : List Path :=
  (List.range p.length).filterMap (fun i =>
    if 1 ≤ i ∧ p.get? i = some '/' then some (p.take i) else none)

/-- One iteration of `mkdir_recursive`'s loop: `mkdir` the prefix, tolerate
`EEXIST`, abort on any other error. -/
def mkdirRecStep (st : FS × Option Nat) (pre : Path) : FS × Option Nat :=
  match st with
  | (fs', some e) => (fs', some e)
  | (fs', none) =>
    match sys_mkdir fs' pre with
    | (fs'', none) => (fs'', none)
    | (fs'', some e) => if e = EEXIST then (fs'', none) else (fs'', some e)

/-- `FileNavigator::mkdir_recursive` (navigator.cpp:546-560): `mkdir` every
slash prefix tolerating `EEXIST`, then return the **raw** result of `mkdir`
on the full path — an existing directory therefore still reports `EEXIST`. -/
def mkdir_recursive (fs : FS) (p : Path) : FS × Option Nat :=
  match (slashPrefixes p).foldl mkdirRecStep (fs, none) with
  | (fs', some e) => (fs', some e)
  | (fs', none) => sys_mkdir fs' p

/-- `FileNavigator::create_directory` (navigator.cpp:522-544). -/
def create_directory (fs : FS) (current_path : Path) (args : List Path) :
    FS × CmdOut :=
  match args with
  | [] => (fs, .err 0)
  | dir_name :: restArgs =>
    let full_path := get_absolute_path current_path dir_name
    if restArgs.head? = some ['-', 'p'] then
      match mkdir_recursive fs full_path with
      | (fs', none) => (fs', .ok full_path)
      | (fs', some e) => (fs', .err e)
    else
      match sys_mkdir fs full_path with
      | (fs', none) => (fs', .ok full_path)
      | (fs', some e) => (fs', .err e)

/-! ## A tree filesystem model for delete (C4)

`FileNavigator::delete_item` / `delete_directory_recursive`
(navigator.cpp:562-623).  The directory tree is a nested structure; paths
are segment lists.  The recursive delete is modelled as the execution it
performs: one syscall per removed node, children before their `rmdir`ed
parent, with the issued syscall trace returned alongside the new state. -/
mutual
/-- One node of the tree filesystem. -/
inductive TNode where
  | file (content : List Nat) : TNode
  | symlink (target : List Char) : TNode
  | dir (entries : EntryList) : TNode

/-- A directory's entries in `readdir` order. -/
inductive EntryList where
  | nil : EntryList
  | cons (name : Path) (node : TNode) (rest : EntryList) : EntryList
end

/-- Find the entry named `n` in one directory (`lstat` of one child). -/
def lookupE : EntryList → Path → Option TNode
  | .nil, _ => none
  | .cons m node rest, n => if m = n then some node else lookupE rest n

mutual
/-- The node at segment path `p` below `root` (`[]` names `root` itself). -/
def lookupT : TNode → List Path → Option TNode
  | node, [] => some node
  | .dir es, seg :: rest => lookupInDir es seg rest
  | .file _, _ :: _ => none
  | .symlink _, _ :: _ => none

def lookupInDir : EntryList → Path → List Path → Option TNode
  | .nil, _, _ => none
  | .cons m node es, seg, rest =>
    if m = seg then lookupT node rest else lookupInDir es seg rest
end

mutual
/-- Remove the node at path `p` (the root itself cannot be removed). -/
def removeAtT : TNode → List Path → TNode
  | node, [] => node
  | .dir es, seg :: rest => .dir (removeAtE es seg rest)
  | .file c, _ :: _ => .file c
  | .symlink t, _ :: _ => .symlink t

def removeAtE : EntryList → Path → List Path → EntryList
  | .nil, _, _ => .nil
  | .cons m node es, seg, rest =>
    if m = seg then
      match rest with
      | [] => es
      | _ :: _ => .cons m (removeAtT node rest) es
    else .cons m node (removeAtE es seg rest)
end

/-- Does the entry list carry an entry of this name? -/
def hasName : EntryList → Path → Bool
  | .nil, _ => false
  | .cons m _ rest, n => if m = n then true else hasName rest n

mutual
/-- Well-formedness: sibling names are distinct at every level. -/
def wfN : TNode → Bool
  | .dir es => wfE es
  | .file _ => true
  | .symlink _ => true

def wfE : EntryList → Bool
  | .nil => true
  | .cons n node rest => !hasName rest n && wfN node && wfE rest
end

/-- A removal syscall, by absolute segment path. -/
inductive FsEvent where
  | unlinked (p : List Path) : FsEvent
  | rmdired (p : List Path) : FsEvent

def pathOfEvent : FsEvent → List Path
  | .unlinked q => q
  | .rmdired q => q

/-- Re-root an event path under a prefix. -/
def shiftEvent (pre : List Path) : FsEvent → FsEvent
  | .unlinked q => .unlinked (pre ++ q)
  | .rmdired q => .rmdired (pre ++ q)

/-- The `readdir` loop of `delete_directory_recursive` (navigator.cpp:
593-623), executed on one directory's entries: non-directories are
`unlink`ed; a subdirectory is cleared recursively and then `rmdir`ed;
the loop aborts at the first failing syscall (the model's syscalls do not
fail, so the loop runs to completion).  Returns the remaining entries, the
success flag and the syscall trace, with paths relative to this directory. -/
def delEntriesRun : EntryList → EntryList × Bool × List FsEvent
  | .nil => (.nil, true, [])
  | .cons n node rest =>
    match node with
    | .dir es =>
      let sub := delEntriesRun es
      if sub.2.1 then
        let r := delEntriesRun rest
        (r.1, r.2.1,
          sub.2.2.map (shiftEvent [n]) ++ [.rmdired [n]] ++ r.2.2)
      else (.cons n (.dir sub.1) rest, false, sub.2.2.map (shiftEvent [n]))
    | _ =>
      let r := delEntriesRun rest
      (r.1, r.2.1, .unlinked [n] :: r.2.2)

/-- Outcome of a delete command (the JSON result object). -/
inductive DelOut where
  | ok : DelOut
  | err (errno : Nat) : DelOut
deriving DecidableEq

/-- `FileNavigator::delete_item` (navigator.cpp:562-591): `lstat` the target
(missing target fails); with a directory, `-r` runs the recursive delete and
a final `rmdir`, while its absence issues a single `rmdir` — which fails
`ENOTEMPTY` on a non-empty directory and changes nothing; a non-directory is
`unlink`ed.  Also returns the removal syscall trace. -/
def delete_item (root : TNode) (p : List Path) (recursive : Bool) :
    TNode × DelOut × List FsEvent :=
  match p, lookupT root p with
  | _, none => (root, .err ENOENT, [])
  | [], some _ => (root, .err ENOTEMPTY, [])
  | _ :: _, some (.dir es) =>
    if recursive then
      let r := delEntriesRun es
      if r.2.1 then
        (removeAtT root p, .ok, r.2.2.map (shiftEvent p) ++ [.rmdired p])
      else (root, .err ENOTEMPTY, r.2.2.map (shiftEvent p))
    else
      match es with
      | .nil => (removeAtT root p, .ok, [.rmdired p])
      | .cons _ _ _ => (root, .err ENOTEMPTY, [])
  | _ :: _, some _ => (removeAtT root p, .ok, [.unlinked p])

/-- Depth-first discipline of a removal trace: once a directory has been
`rmdir`ed, no later syscall touches that directory or anything below it —
equivalently, every child was removed before its parent. -/
def goodTrace : List FsEvent → Prop
  | [] => True
  | .unlinked _ :: rest => goodTrace rest
  | .rmdired d :: rest =>
    (∀ e ∈ rest, ¬ d <+: pathOfEvent e) ∧ goodTrace rest

/-! ## Basic facts about `csplit` / `cjoin` -/
theorem csplit_ne_nil (p : Path) : csplit p ≠ [] := by
  cases p with
  | nil => simp [csplit]
  | cons c cs =>
    simp only [csplit]
    split
    · simp
    · cases h : csplit cs <;> simp

theorem mem_csplit_no_slash (p : Path) : ∀ t ∈ csplit p, '/' ∉ t := by
  induction p with
  | nil => intro t ht; simp [csplit] at ht; simp [ht]
  | cons c cs ih =>
    intro t ht
    simp only [csplit] at ht
    split at ht
    · rcases List.mem_cons.mp ht with h | h
      · simp [h]
      · exact ih t h
    · rename_i hc
      rcases hcs : csplit cs with _ | ⟨u, us⟩
      · exact absurd hcs (csplit_ne_nil cs)
      · rw [hcs] at ht
        rcases List.mem_cons.mp ht with h | h
        · subst h
          intro hmem
          rcases List.mem_cons.mp hmem with h | h
          · exact hc h.symm
          · exact ih u (by rw [hcs]; exact List.mem_cons_self u us) h
        · exact ih t (by rw [hcs]; exact List.mem_cons_of_mem u h)

/-- Splitting after prepending a slash-free piece and a separator. -/
theorem csplit_append_slash (a : Path) (rest : Path) (ha : '/' ∉ a) :
    csplit (a ++ '/' :: rest) = a :: csplit rest := by
  induction a with
  | nil => simp [csplit]
  | cons c cs ih =>
    have hc : c ≠ '/' := fun h => ha (h ▸ List.mem_cons_self c cs)
    have hcs : '/' ∉ cs := fun h => ha (List.mem_cons_of_mem c h)
    have h2 := ih hcs
    simp only [List.cons_append, csplit, if_neg hc]
    rw [show cs.append ('/' :: rest) = cs ++ '/' :: rest from rfl, h2]

/-- Splitting a nonempty slash-free piece yields just that piece. -/
theorem csplit_single (a : Path) (ha : '/' ∉ a) (h0 : a ≠ []) :
    csplit a = [a] := by
  induction a with
  | nil => exact absurd rfl h0
  | cons c cs ih =>
    have hc : c ≠ '/' := fun h => ha (h ▸ List.mem_cons_self c cs)
    have hcs : '/' ∉ cs := fun h => ha (List.mem_cons_of_mem c h)
    simp only [csplit, if_neg hc]
    cases cs with
    | nil => simp [csplit]
    | cons d ds => rw [ih hcs (by simp)]

/-- `csplit` is a left inverse of `cjoin` on lists of nonempty slash-free
components. -/
theorem csplit_cjoin (comps : List Path)
    (hne : ∀ c ∈ comps, c ≠ []) (hns : ∀ c ∈ comps, '/' ∉ c)
    (h0 : comps ≠ []) : csplit (cjoin comps) = comps := by
  induction comps with
  | nil => exact absurd rfl h0
  | cons c cs ih =>
    cases cs with
    | nil =>
      show csplit (cjoin [c]) = [c]
      rw [show cjoin [c] = c from rfl]
      exact csplit_single c (hns c (List.mem_cons_self c []))
        (hne c (List.mem_cons_self c []))
    | cons d ds =>
      show csplit (c ++ '/' :: cjoin (d :: ds)) = c :: d :: ds
      rw [csplit_append_slash c _ (hns c (List.mem_cons_self c _)),
        ih (fun x hx => hne x (List.mem_cons_of_mem c hx))
          (fun x hx => hns x (List.mem_cons_of_mem c hx)) (by simp)]

/-- Characters of a split piece come from the split character list. -/
theorem mem_csplit_chars (p : Path) :
    ∀ t ∈ csplit p, ∀ ch ∈ t, ch ∈ p := by
  induction p with
  | nil => intro t ht; simp [csplit] at ht; simp [ht]
  | cons c cs ih =>
    intro t ht ch hch
    simp only [csplit] at ht
    split at ht
    · rcases List.mem_cons.mp ht with h | h
      · simp [h] at hch
      · exact List.mem_cons_of_mem c (ih t h ch hch)
    · rcases hcs : csplit cs with _ | ⟨u, us⟩
      · exact absurd hcs (csplit_ne_nil cs)
      · rw [hcs] at ht
        rcases List.mem_cons.mp ht with h | h
        · subst h
          rcases List.mem_cons.mp hch with h | h
          · simp [h]
          · exact List.mem_cons_of_mem c
              (ih u (by rw [hcs]; exact List.mem_cons_self u us) ch h)
        · exact List.mem_cons_of_mem c
            (ih t (by rw [hcs]; exact List.mem_cons_of_mem u h) ch hch)

/-! ## Facts about the `collapse` loop -/
theorem collapse_mem (ts : List Path) : ∀ (acc : List Path) (x : Path),
    x ∈ collapse acc ts →
    x ∈ acc ∨ (x ∈ ts ∧ x ≠ ['.', '.'] ∧ x ≠ ['.'] ∧ x ≠ []) := by
  induction ts with
  | nil => intro acc x hx; exact Or.inl hx
  | cons t ts ih =>
    intro acc x hx
    simp only [collapse] at hx
    split at hx
    · exact Or.inl hx
    · split at hx
      · rcases ih _ x hx with h | h
        · exact Or.inl (List.drop_subset 1 acc h)
        · exact Or.inr ⟨List.mem_cons_of_mem t h.1, h.2⟩
      · split at hx
        · rcases ih _ x hx with h | h
          · exact Or.inl h
          · exact Or.inr ⟨List.mem_cons_of_mem t h.1, h.2⟩
        · rename_i hdd hds
          rcases ih _ x hx with h | h
          · rcases List.mem_cons.mp h with h' | h'
            · subst h'
              push_neg at hds
              exact Or.inr ⟨List.mem_cons_self x ts, hdd, hds.1, hds.2⟩
            · exact Or.inl h'
          · exact Or.inr ⟨List.mem_cons_of_mem t h.1, h.2⟩

theorem collapse_length_le (ts : List Path) : ∀ acc : List Path,
    (collapse acc ts).length ≤ max acc.length 256 := by
  induction ts with
  | nil => intro acc; simp [collapse]
  | cons t ts ih =>
    intro acc
    simp only [collapse]
    split
    · exact le_max_left _ _
    · rename_i hlen
      push_neg at hlen
      split
      · exact le_trans (ih _)
          (max_le_max (by simp) le_rfl)
      · split
        · exact ih acc
        · refine le_trans (ih _) (max_le ?_ (le_max_right _ _))
          simp only [List.length_cons]
          exact le_max_of_le_right (by omega)

theorem collapse_sublist (ts : List Path) : ∀ acc : List Path,
    (collapse acc ts).reverse.Sublist (acc.reverse ++ ts) := by
  induction ts with
  | nil => intro acc; rw [List.append_nil]; exact List.Sublist.refl _
  | cons t ts ih =>
    intro acc
    simp only [collapse]
    split
    · exact List.sublist_append_left _ _
    · split
      · refine (ih _).trans ?_
        exact List.Sublist.append ((List.drop_sublist 1 acc).reverse)
          (List.sublist_cons_self t ts)
      · split
        · exact (ih _).trans
            (List.Sublist.append (List.Sublist.refl _) (List.sublist_cons_self t ts))
        · refine (ih _).trans ?_
          have : (t :: acc).reverse ++ ts = acc.reverse ++ t :: ts := by
            simp
          rw [this]

theorem collapse_clean (ts : List Path) : ∀ acc : List Path,
    (∀ t ∈ ts, t ≠ ['.', '.'] ∧ t ≠ ['.'] ∧ t ≠ []) →
    acc.length + ts.length ≤ 256 →
    collapse acc ts = ts.reverse ++ acc := by
  induction ts with
  | nil => intro acc _ _; simp [collapse]
  | cons t ts ih =>
    intro acc hclean hlen
    have ht := hclean t (List.mem_cons_self t ts)
    simp only [List.length_cons] at hlen
    simp only [collapse]
    rw [if_neg (by omega), if_neg ht.1, if_neg (by simp [ht.2.1, ht.2.2]),
      ih (t :: acc) (fun u hu => hclean u (List.mem_cons_of_mem t hu))
        (by simp; omega)]
    simp

/-! ## Lengths -/
theorem cjoin_length (comps : List Path) :
    (cjoin comps).length = (comps.map List.length).sum + (comps.length - 1) := by
  induction comps with
  | nil => simp [cjoin]
  | cons c cs ih =>
    cases cs with
    | nil => simp [cjoin]
    | cons d ds =>
      show (c ++ '/' :: cjoin (d :: ds)).length = _
      simp only [List.length_append, List.length_cons, ih, List.map_cons,
        List.sum_cons, List.length_cons]
      omega

theorem csplit_length_sum (p : Path) :
    ((csplit p).map List.length).sum + ((csplit p).length - 1) = p.length := by
  induction p with
  | nil => simp [csplit]
  | cons c cs ih =>
    simp only [csplit]
    split
    · have h1 : (csplit cs).length ≥ 1 :=
        List.length_pos.mpr (csplit_ne_nil cs)
      simp only [List.map_cons, List.sum_cons, List.length_cons, List.length_nil]
      omega
    · rcases hcs : csplit cs with _ | ⟨u, us⟩
      · exact absurd hcs (csplit_ne_nil cs)
      · rw [hcs] at ih
        simp only [List.map_cons, List.sum_cons, List.length_cons] at ih ⊢
        omega

/-! ## Properties of `normComps` -/
theorem normComps_clean (p : Path) : ∀ c ∈ normComps p,
    c ≠ ['.', '.'] ∧ c ≠ ['.'] ∧ c ≠ [] ∧ '/' ∉ c ∧ '\\' ∉ c := by
  intro c hc
  rw [normComps, List.mem_reverse] at hc
  rcases collapse_mem _ _ _ hc with h | h
  · simp at h
  · obtain ⟨hmem, h1, h2, h3⟩ := h
    refine ⟨h1, h2, h3, mem_csplit_no_slash _ c hmem, fun hb => ?_⟩
    have := mem_csplit_chars _ c hmem '\\' hb
    simp only [deback, List.mem_map] at this
    obtain ⟨a, -, ha⟩ := this
    split at ha <;> simp_all

theorem normComps_length_le (p : Path) : (normComps p).length ≤ 256 := by
  rw [normComps, List.length_reverse]
  simpa using collapse_length_le _ []

theorem normComps_sublist (p : Path) :
    (normComps p).Sublist (csplit (deback (p.take (PATH_MAX - 1)))) := by
  rw [normComps]
  simpa using collapse_sublist _ []

theorem cjoin_normComps_length (p : Path) :
    (cjoin (normComps p)).length ≤ (p.take (PATH_MAX - 1)).length := by
  rw [cjoin_length]
  have hsub := normComps_sublist p
  have h1 : ((normComps p).map List.length).sum ≤
      ((csplit (deback (p.take (PATH_MAX - 1)))).map List.length).sum :=
    (hsub.map List.length).sum_le_sum (fun a _ => Nat.zero_le a)
  have h2 : (normComps p).length ≤
      (csplit (deback (p.take (PATH_MAX - 1)))).length := hsub.length_le
  have h3 := csplit_length_sum (deback (p.take (PATH_MAX - 1)))
  have h4 : (deback (p.take (PATH_MAX - 1))).length = (p.take (PATH_MAX - 1)).length := by
    simp [deback]
  omega

theorem normalize_path_length (p : Path) :
    (normalize_path p).length ≤ PATH_MAX - 1 := by
  rw [normalize_path]
  split
  · simp [PATH_MAX]
  · exact le_trans (List.length_take_le _ _) le_rfl

theorem cjoin_ne_nil (comps : List Path) (h0 : comps ≠ [])
    (hne : ∀ c ∈ comps, c ≠ []) : cjoin comps ≠ [] := by
  cases comps with
  | nil => exact absurd rfl h0
  | cons c cs =>
    cases cs with
    | nil => exact hne c (List.mem_cons_self c [])
    | cons d ds =>
      show c ++ '/' :: cjoin (d :: ds) ≠ []
      simp

theorem cjoin_chars (comps : List Path) :
    ∀ ch ∈ cjoin comps, ch = '/' ∨ ∃ c ∈ comps, ch ∈ c := by
  induction comps with
  | nil => intro ch hch; simp [cjoin] at hch
  | cons c cs ih =>
    cases cs with
    | nil =>
      intro ch hch
      exact Or.inr ⟨c, List.mem_cons_self c [], hch⟩
    | cons d ds =>
      intro ch hch
      rcases List.mem_append.mp hch with h | h
      · exact Or.inr ⟨c, List.mem_cons_self c _, h⟩
      · rcases List.mem_cons.mp h with h' | h'
        · exact Or.inl h'
        · rcases ih ch h' with h'' | ⟨u, hu, hchu⟩
          · exact Or.inl h''
          · exact Or.inr ⟨u, List.mem_cons_of_mem c hu, hchu⟩

theorem deback_eq_self (p : Path) (h : '\\' ∉ p) : deback p = p := by
  rw [deback]
  have hcong : ∀ c ∈ p, (if c = '\\' then '/' else c) = c := by
    intro c hc
    rw [if_neg (fun hcb => h (by rw [← hcb]; exact hc))]
  rw [List.map_congr_left hcong]
  simp

/-- Shape of `normalize_path`'s output: either all components cancelled and
the result is `"."`, or the result is the slash-join of the collapsed
components. -/
theorem normalize_path_cases (p : Path) :
    (normComps p = [] ∧ normalize_path p = ['.']) ∨
    (normComps p ≠ [] ∧ normalize_path p = cjoin (normComps p)) := by
  by_cases h : normComps p = []
  · left
    refine ⟨h, ?_⟩
    rw [normalize_path, h]
    simp [cjoin]
  · right
    refine ⟨h, ?_⟩
    have hlen : (cjoin (normComps p)).length ≤ PATH_MAX - 1 :=
      le_trans (cjoin_normComps_length p) (List.length_take_le _ _)
    have htake : (cjoin (normComps p)).take (PATH_MAX - 1) = cjoin (normComps p) :=
      List.take_of_length_le hlen
    have hnn : cjoin (normComps p) ≠ [] :=
      cjoin_ne_nil _ h (fun c hc => (normComps_clean p c hc).2.2.1)
    rw [normalize_path]
    simp only [htake, if_neg hnn]

/-- Normalizing an already-normalized path recovers the same components. -/
theorem normComps_normalize (p : Path) :
    normComps (normalize_path p) = normComps p := by
  rcases normalize_path_cases p with ⟨h0, hdot⟩ | ⟨h0, hj⟩
  · rw [hdot, h0]
    decide
  · rw [hj]
    have hclean := normComps_clean p
    have hlen : (cjoin (normComps p)).length ≤ PATH_MAX - 1 :=
      le_trans (cjoin_normComps_length p) (List.length_take_le _ _)
    have hnb : '\\' ∉ cjoin (normComps p) := by
      intro hb
      rcases cjoin_chars _ _ hb with h | ⟨c, hc, hbc⟩
      · simp at h
      · exact (hclean c hc).2.2.2.2 hbc
    rw [normComps, List.take_of_length_le hlen, deback_eq_self _ hnb,
      csplit_cjoin _ (fun c hc => (hclean c hc).2.2.1)
        (fun c hc => (hclean c hc).2.2.2.1) h0,
      collapse_clean _ [] (fun t ht => ⟨(hclean t ht).1, (hclean t ht).2.1,
        (hclean t ht).2.2.1⟩) (by simpa using normComps_length_le p)]
    simp [normComps]

theorem cjoin_head (c : Path) (cs : List Path) (hc : c ≠ []) :
    (cjoin (c :: cs)).head? = c.head? := by
  cases cs with
  | nil => rfl
  | cons d ds =>
    show (c ++ '/' :: cjoin (d :: ds)).head? = c.head?
    cases c with
    | nil => exact absurd rfl hc
    | cons x xs => rfl

theorem normalize_path_head (p : Path) :
    (normalize_path p).head? ≠ some '/' := by
  rcases normalize_path_cases p with ⟨-, hdot⟩ | ⟨h0, hj⟩
  · rw [hdot]; decide
  · rcases hcomps : normComps p with _ | ⟨c, cs⟩
    · exact absurd hcomps h0
    · have hclean := normComps_clean p c (by rw [hcomps]; exact List.mem_cons_self c cs)
      rw [hj, hcomps, cjoin_head c cs hclean.2.2.1]
      cases c with
      | nil => exact absurd rfl hclean.2.2.1
      | cons x xs =>
        simp only [List.head?_cons, ne_eq, Option.some.injEq]
        intro hx
        exact hclean.2.2.2.1 (by rw [← hx]; exact List.mem_cons_self x xs)

theorem normalize_path_no_backslash (p : Path) :
    '\\' ∉ normalize_path p := by
  rcases normalize_path_cases p with ⟨-, hdot⟩ | ⟨-, hj⟩
  · rw [hdot]; decide
  · rw [hj]
    intro hb
    rcases cjoin_chars _ _ hb with h | ⟨c, hc, hbc⟩
    · simp at h
    · exact (normComps_clean p c hc).2.2.2.2 hbc

/-- **C7.** For every path string `p`, `normalize(normalize(p)) = normalize(p)`:
`normalize_path` is idempotent. -/
theorem normalize_path_idempotent (p : Path) :
    normalize_path (normalize_path p) = normalize_path p := by
  rcases normalize_path_cases p with ⟨h0, hdot⟩ | ⟨h0, hj⟩
  · rcases normalize_path_cases (normalize_path p) with ⟨-, hdot2⟩ | ⟨h02, -⟩
    · rw [hdot2, hdot]
    · rw [normComps_normalize, h0] at h02
      exact absurd rfl h02
  · rcases normalize_path_cases (normalize_path p) with ⟨h02, -⟩ | ⟨-, hj2⟩
    · rw [normComps_normalize] at h02
      exact absurd h02 h0
    · rw [hj2, normComps_normalize, hj]

/-- When components survive, the normalized path splits back into exactly
the collapsed component list. -/
theorem csplit_normalize (p : Path) (h0 : normComps p ≠ []) :
    csplit (normalize_path p) = normComps p := by
  rcases normalize_path_cases p with ⟨h0', -⟩ | ⟨-, hj⟩
  · exact absurd h0' h0
  · have hclean := normComps_clean p
    rw [hj, csplit_cjoin _ (fun c hc => (hclean c hc).2.2.1)
      (fun c hc => (hclean c hc).2.2.2.1) h0]

/-- **C10.** The output of `normalize_path` never begins with `'/'` (so
normalizing an absolute path yields a relative one), contains no backslash,
and is `"."` exactly when all components cancel; otherwise it splits back
into the collapsed components, none of which is `"."`, `".."` or empty. -/
theorem normalize_path_shape (p : Path) :
    (normalize_path p).head? ≠ some '/' ∧
    '\\' ∉ normalize_path p ∧
    (normComps p = [] → normalize_path p = ['.']) ∧
    (normComps p ≠ [] → csplit (normalize_path p) = normComps p ∧
      ∀ c ∈ csplit (normalize_path p), c ≠ ['.'] ∧ c ≠ ['.', '.'] ∧ c ≠ []) := by
  refine ⟨normalize_path_head p, normalize_path_no_backslash p, ?_, ?_⟩
  · intro h0
    rcases normalize_path_cases p with ⟨-, hdot⟩ | ⟨h0', -⟩
    · exact hdot
    · exact absurd h0 h0'
  · intro h0
    have hclean := normComps_clean p
    refine ⟨csplit_normalize p h0, ?_⟩
    rw [csplit_normalize p h0]
    intro c hc
    exact ⟨(hclean c hc).2.1, (hclean c hc).1, (hclean c hc).2.2.1⟩

theorem has_dangerous_chars_false (p : Path) :
    has_dangerous_chars p = false := by
  rw [has_dangerous_chars, List.any_eq_false]
  intro ch _
  simp only [Bool.not_eq_true]
  split
  · rfl
  · split
    · rename_i hin
      have hnobad : ∀ c ∈ csplit p, componentHasBad c = false := by
        intro c hc
        rw [componentHasBad, List.any_eq_false]
        intro x hx
        simp only [Bool.not_eq_true, decide_eq_false_iff_not]
        intro hxe
        exact mem_csplit_no_slash p c hc (by rw [← hxe]; exact hx)
      rw [Bool.or_eq_false_iff]
      constructor
      · rw [List.any_eq_false]
        intro c hc
        simp only [Bool.not_eq_true]
        rw [hnobad c (List.dropLast_sublist (csplit p) |>.subset hc)]
        simp
      · rcases hlast : (csplit p).getLast? with _ | last
        · simp only [hlast]
        · simp only [hlast]
          rw [hnobad last (List.mem_of_mem_getLast? hlast)]
          simp
    · rfl

theorem systemPaths_head : ∀ sp ∈ systemPaths, sp.head? = some '/' := by
  decide

theorem specDenylisted_normalize (p : Path) :
    specDenylisted (normalize_path p) = false := by
  rw [specDenylisted, List.any_eq_false]
  intro sp hsp hpre
  have hprefix := List.isPrefixOf_iff_prefix.mp hpre
  have hhead := systemPaths_head sp hsp
  cases sp with
  | nil => simp at hhead
  | cons x xs =>
    simp only [List.head?_cons, Option.some.injEq] at hhead
    obtain ⟨t, ht⟩ := hprefix
    apply normalize_path_head p
    rw [← ht, hhead]
    rfl

theorem specEscapesRoot_normalize (p : Path) :
    specEscapesRoot (normalize_path p) = false := by
  rw [specEscapesRoot, List.any_eq_false]
  intro c hc hx
  have hce : c = ['.', '.'] := of_decide_eq_true hx
  rcases normalize_path_cases p with ⟨-, hdot⟩ | ⟨h0, -⟩
  · rw [hdot, show csplit ['.'] = [['.']] from rfl] at hc
    rw [List.mem_singleton] at hc
    rw [hce] at hc
    simp at hc
  · rw [csplit_normalize p h0] at hc
    exact (normComps_clean p c hc).1 hce

/-- **C1** (amended).  Assuming the filesystem symlink probe does not fire on
the normalized path, `is_safe_path (normalize_path p)` is false **iff** the
normalized path contains the literal substring `"../"` — which can arise only
from a component whose own name ends in `".."`, since normalization removes
all `".."` components.  The claim's two stated reasons never occur: the
normalized path never retains an escaping `".."` component and never begins
with a denylisted system prefix (it is relative). -/
theorem isSafe_normalize_characterization (env : Path → Bool) (p : Path)
    (henv : env (normalize_path p) = false) :
    (is_safe_path env (normalize_path p) = false ↔
      hasSub (normalize_path p) ("../" : String).data = true) ∧
    specEscapesRoot (normalize_path p) = false ∧
    specDenylisted (normalize_path p) = false := by
  refine ⟨?_, specEscapesRoot_normalize p, specDenylisted_normalize p⟩
  rw [is_safe_path, henv, has_dangerous_chars_false]
  have hden : systemPaths.any (fun sp => sp.isPrefixOf (normalize_path p)) = false :=
    specDenylisted_normalize p
  rw [hden]
  cases h : hasSub (normalize_path p) ("../" : String).data
  · simp
  · simp

/-- Witness for the amended C1 at `p = "x"` with an inert filesystem probe. -/
theorem isSafe_normalize_characterization_witness :
    ((fun (_ : Path) => false) (normalize_path ['x']) = false) ∧
    ((is_safe_path (fun _ => false) (normalize_path ['x']) = false ↔
      hasSub (normalize_path ['x']) ("../" : String).data = true) ∧
    specEscapesRoot (normalize_path ['x']) = false ∧
    specDenylisted (normalize_path ['x']) = false) :=
  ⟨rfl, isSafe_normalize_characterization (fun _ => false) ['x'] rfl⟩

/-- **C1** (counterexample).  For `p = "a../b"` the normalized path is
`"a../b"` itself; it has no escaping `".."` component and no denylisted
prefix, yet `is_safe_path` rejects it (the `strstr(path, "../")` test matches
inside the component name `"a.."`).  So "returns false for no other reason"
fails. -/
theorem isSafe_normalize_c1_counterexample :
    is_safe_path (fun _ => false) (normalize_path ("a../b" : String).data) = false ∧
    specEscapesRoot (normalize_path ("a../b" : String).data) = false ∧
    specDenylisted (normalize_path ("a../b" : String).data) = false := by
  decide

/-- **C9** (counterexample).  At mode `0o104755` (a regular file with the
setuid bit and `rwxr-xr-x`), `get_permissions_string` of file_ops.c — the
renderer used by `n8n_list_files` to fill metadata records — omits the `s`
overlay at position 3, while `permissions_to_string` of file_utils.c renders
it as the claim demands. -/
theorem perm_string_c9_counterexample :
    get_permissions_string 0o104755 ≠ spec_permission_string 0o104755 ∧
    permissions_to_string 0o104755 = spec_permission_string 0o104755 := by
  decide

/-- **C9** (amended).  `permissions_to_string` (file_utils.c) and
`FileNavigator::get_permissions_string` (navigator.cpp) both produce exactly
the claimed rendering — type character, three rwx triplets, `s/S`/`s/S`/`t/T`
overlays at positions 3/6/9 — for every mode; only file_ops.c's
`get_permissions_string` deviates (no overlays, type reduced to `d`/`l`/`-`). -/
theorem perm_string_overlays (m : Nat) :
    permissions_to_string m = spec_permission_string m ∧
    nav_get_permissions_string m = spec_permission_string m := by
  constructor
  · rfl
  · by_cases h1 : m &&& S_ISUID ≠ 0 <;> by_cases h2 : m &&& S_ISGID ≠ 0 <;>
      by_cases h3 : m &&& S_ISVTX ≠ 0 <;>
      simp [nav_get_permissions_string, spec_permission_string, specTriplet,
        h1, h2, h3, List.set]

/-- **C8** (counterexample).  Invoking the program with the unknown command
word `frobnicate` makes dispatch produce the unknown-command **error**
payload, yet the process exits 0 — the claim requires a non-zero exit for an
unknown command word. -/
theorem main_exit_c8_counterexample :
    mainExitCode (fun c a => .ok (execute_command (fun _ _ => "") c a))
      ["navigator", "frobnicate"] = 0 ∧
    execute_command (fun _ _ => "") "frobnicate" [] =
      "\x7b\"error\":\"Unknown command: frobnicate\"\x7d" := by
  constructor
  · rfl
  · rfl

/-- **C8** (amended).  The exit code is 0 exactly when a command word is
present and dispatch does not throw: with no command word `main` prints help
and exits 1; the help/version/lib-status flags exit 0; otherwise the exit
code is 0 iff dispatch produced a result string.  Since `execute_command`
always produces a string — filesystem-level failures and unknown commands
are reported as structured error payloads — every such invocation exits 0. -/
theorem main_exit_characterization (exec : String → List String → Dispatch) :
    mainExitCode exec [] = 1 ∧
    (∀ prog, mainExitCode exec [prog] = 1) ∧
    (∀ prog command rest, mainExitCode exec (prog :: command :: rest) = 0 ↔
      (command = "--help" ∨ command = "-h" ∨ command = "help" ∨
       command = "--version" ∨ command = "-v" ∨ command = "--lib-status" ∨
       ∃ s, exec command rest = .ok s)) ∧
    (∀ handlers prog command rest,
      mainExitCode (fun c a => .ok (execute_command handlers c a))
        (prog :: command :: rest) = 0) := by
  refine ⟨rfl, fun _ => rfl, ?_, ?_⟩
  · intro prog command rest
    simp only [mainExitCode]
    split
    · rename_i h
      simp only [true_iff]
      tauto
    · split
      · rename_i h
        simp only [true_iff]
        tauto
      · split
        · rename_i h
          simp only [true_iff]
          tauto
        · rename_i h1 h2 h3
          cases hx : exec command rest with
          | ok s =>
            simp only [true_iff]
            exact Or.inr (Or.inr (Or.inr (Or.inr (Or.inr (Or.inr ⟨s, rfl⟩)))))
          | thrown msg =>
            constructor
            · intro h
              exact absurd h (by simp)
            · intro h
              rcases h with h | h | h | h | h | h | ⟨s, hs⟩
              · exact absurd (Or.inl h) h1
              · exact absurd (Or.inr (Or.inl h)) h1
              · exact absurd (Or.inr (Or.inr h)) h1
              · exact absurd (Or.inl h) h2
              · exact absurd (Or.inr h) h2
              · exact absurd h h3
              · exact absurd hs (by simp)
  · intro handlers prog command rest
    simp only [mainExitCode]
    split
    · rfl
    · split
      · rfl
      · split
        · rfl
        · rfl

/-! ### Order-theoretic facts about the comparator -/
theorem lexLt_irrefl (a : Path) : lexLt a a = false := by
  induction a with
  | nil => rfl
  | cons x xs ih => simp [lexLt, ih]

theorem lexLt_asymm (a b : Path) (h : lexLt a b = true) : lexLt b a = false := by
  induction a generalizing b with
  | nil =>
    cases b with
    | nil => exact absurd h (by simp [lexLt])
    | cons y ys => rfl
  | cons x xs ih =>
    cases b with
    | nil => exact absurd h (by simp [lexLt])
    | cons y ys =>
      simp only [lexLt] at h ⊢
      rcases lt_trichotomy x y with hxy | hxy | hxy
      · simp [hxy, not_lt_of_lt hxy]
      · subst hxy
        simp only [lt_irrefl, if_false] at h ⊢
        exact ih ys h
      · simp [hxy, not_lt_of_lt hxy] at h

theorem lexLt_trans (a b c : Path) (hab : lexLt a b = true)
    (hbc : lexLt b c = true) : lexLt a c = true := by
  induction a generalizing b c with
  | nil =>
    cases c with
    | nil =>
      cases b with
      | nil => exact absurd hab (by simp [lexLt])
      | cons y ys => exact absurd hbc (by simp [lexLt])
    | cons z zs => rfl
  | cons x xs ih =>
    cases b with
    | nil => exact absurd hab (by simp [lexLt])
    | cons y ys =>
      cases c with
      | nil => exact absurd hbc (by simp [lexLt])
      | cons z zs =>
        simp only [lexLt] at hab hbc ⊢
        rcases lt_trichotomy x y with hxy | hxy | hxy
        · rcases lt_trichotomy y z with hyz | hyz | hyz
          · simp [lt_trans hxy hyz]
          · subst hyz; simp [hxy]
          · simp [hyz, not_lt_of_lt hyz] at hbc
        · subst hxy
          simp only [lt_irrefl, if_false] at hab
          rcases lt_trichotomy x z with hxz | hxz | hxz
          · simp [hxz]
          · subst hxz
            simp only [lt_irrefl, if_false] at hbc ⊢
            exact ih ys zs hab hbc
          · simp [hxz, not_lt_of_lt hxz] at hbc
        · simp [hxy, not_lt_of_lt hxy] at hab

theorem lexLt_connex (a b : Path) (hab : lexLt a b = false)
    (hba : lexLt b a = false) : a = b := by
  induction a generalizing b with
  | nil =>
    cases b with
    | nil => rfl
    | cons y ys => exact absurd hab (by simp [lexLt])
  | cons x xs ih =>
    cases b with
    | nil => exact absurd hba (by simp [lexLt])
    | cons y ys =>
      simp only [lexLt] at hab hba
      rcases lt_trichotomy x y with hxy | hxy | hxy
      · simp [hxy] at hab
      · subst hxy
        simp only [lt_irrefl, if_false] at hab hba
        rw [ih ys hab hba]
      · simp [hxy] at hba

theorem validItem_mkItem (dirPath : Path) (e : RawEntry) :
    validItem (mkItem dirPath e) := by
  cases e.kind <;> simp [validItem, mkItem] <;> cases h : e.kind <;> simp [h]

/-- On valid items the comparator is exactly the strict lexicographic order
on (class rank, name). -/
theorem itemLt_char (a b : FileItem) (ha : validItem a) (hb : validItem b) :
    itemLt a b = true ↔
      (rankOf a.type < rankOf b.type ∨
        (rankOf a.type = rankOf b.type ∧ lexLt a.name b.name = true)) := by
  rcases ha with ha | ha | ha <;> rcases hb with hb | hb | hb <;>
    simp [itemLt, rankOf, ha, hb, typeStr]

theorem lexLt_total (a b : Path) :
    lexLt a b = true ∨ lexLt b a = true ∨ a = b := by
  by_cases h1 : lexLt a b = true
  · exact Or.inl h1
  · by_cases h2 : lexLt b a = true
    · exact Or.inr (Or.inl h2)
    · exact Or.inr (Or.inr (lexLt_connex a b
        (Bool.not_eq_true _ ▸ Bool.of_not_eq_true h1)
        (Bool.of_not_eq_true h2)))

theorem lexLt_negtrans (a b c : Path) (h1 : lexLt b a = false)
    (h2 : lexLt c b = false) : lexLt c a = false := by
  by_contra hcon
  have hca : lexLt c a = true := Bool.of_not_eq_false hcon
  by_cases hbc : lexLt b c = true
  · rw [lexLt_trans b c a hbc hca] at h1
    cases h1
  · have hbceq : b = c := lexLt_connex b c (Bool.of_not_eq_true hbc) h2
    rw [← hbceq] at hca
    rw [hca] at h1
    cases h1

theorem itemLt_asymm (a b : FileItem) (ha : validItem a) (hb : validItem b)
    (h : itemLt b a = true) : itemLt a b = false := by
  rw [itemLt_char b a hb ha] at h
  rw [← Bool.not_eq_true, itemLt_char a b ha hb]
  rcases h with h | ⟨heq, hlex⟩
  · intro hcon
    rcases hcon with h' | ⟨heq', -⟩
    · omega
    · omega
  · intro hcon
    rcases hcon with h' | ⟨-, hlex'⟩
    · omega
    · rw [lexLt_asymm b.name a.name hlex] at hlex'
      cases hlex'

theorem itemLe_trans (a b c : FileItem) (ha : validItem a) (hb : validItem b)
    (hc : validItem c) (h1 : itemLe a b) (h2 : itemLe b c) : itemLe a c := by
  unfold itemLe at *
  rw [← Bool.not_eq_true, itemLt_char c a hc ha]
  have h1x : ¬ (rankOf b.type < rankOf a.type ∨
      (rankOf b.type = rankOf a.type ∧ lexLt b.name a.name = true)) := by
    rw [← itemLt_char b a hb ha, h1]
    simp
  have h2x : ¬ (rankOf c.type < rankOf b.type ∨
      (rankOf c.type = rankOf b.type ∧ lexLt c.name b.name = true)) := by
    rw [← itemLt_char c b hc hb, h2]
    simp
  push_neg at h1x h2x
  rintro (h | ⟨heq, hlex⟩)
  · omega
  · have hba : rankOf b.type = rankOf a.type := by omega
    have hcb : rankOf c.type = rankOf b.type := by omega
    have hba' : lexLt b.name a.name = false := by
      have := h1x.2 hba
      cases hv : lexLt b.name a.name
      · rfl
      · exact absurd hv this
    have hcb' : lexLt c.name b.name = false := by
      have := h2x.2 hcb
      cases hv : lexLt c.name b.name
      · rfl
      · exact absurd hv this
    rw [lexLt_negtrans a.name b.name c.name hba' hcb'] at hlex
    cases hlex

theorem insertItem_perm (a : FileItem) (l : List FileItem) :
    (insertItem a l).Perm (a :: l) := by
  induction l with
  | nil => exact List.Perm.refl _
  | cons b l ih =>
    rw [insertItem]
    split
    · exact (ih.cons b).trans (List.Perm.swap a b l)
    · exact List.Perm.refl _

theorem mem_insertItem (a x : FileItem) (l : List FileItem)
    (hx : x ∈ insertItem a l) : x = a ∨ x ∈ l := by
  have := (insertItem_perm a l).mem_iff.mp hx
  exact List.mem_cons.mp this

theorem insertItem_sorted (a : FileItem) (l : List FileItem)
    (ha : validItem a) (hl : ∀ x ∈ l, validItem x)
    (hs : l.Pairwise itemLe) : (insertItem a l).Pairwise itemLe := by
  induction l with
  | nil => simp [insertItem]
  | cons b l ih =>
    rcases List.pairwise_cons.mp hs with ⟨hb_all, hl_s⟩
    have hbv : validItem b := hl b (List.mem_cons_self b l)
    rw [insertItem]
    split
    · rename_i hba
      refine List.Pairwise.cons ?_
        (ih (fun x hx => hl x (List.mem_cons_of_mem b hx)) hl_s)
      intro x hx
      rcases mem_insertItem a x l hx with heq | hx'
      · subst heq
        exact itemLt_asymm _ b ha hbv hba
      · exact hb_all x hx'
    · rename_i hba
      have hab : itemLe a b := Bool.of_not_eq_true hba
      refine List.Pairwise.cons ?_ hs
      intro x hx
      rcases List.mem_cons.mp hx with rfl | hx'
      · exact hab
      · exact itemLe_trans a b x ha hbv
          (hl x (List.mem_cons_of_mem b hx')) hab (hb_all x hx')

theorem sortItems_perm (l : List FileItem) : (sortItems l).Perm l := by
  induction l with
  | nil => exact List.Perm.refl _
  | cons a l ih =>
    exact (insertItem_perm a (sortItems l)).trans (ih.cons a)

theorem sortItems_sorted (l : List FileItem) (hl : ∀ x ∈ l, validItem x) :
    (sortItems l).Pairwise itemLe := by
  induction l with
  | nil => simp [sortItems]
  | cons a l ih =>
    rw [sortItems]
    refine insertItem_sorted a (sortItems l) (hl a (List.mem_cons_self a l))
      (fun x hx => hl x (List.mem_cons_of_mem a
        ((sortItems_perm l).mem_iff.mp hx)))
      (ih (fun x hx => hl x (List.mem_cons_of_mem a hx)))

/-- **C6.** `get_directory_contents` skips the `"."` and `".."` entries and
returns exactly the remaining entries (as a permutation of the mapped raw
stream), sorted with all directories first, then all symlinks, then all
files, alphabetically by name within each class. -/
theorem list_sort_contract (dirPath : Path) (raw : List RawEntry) :
    (get_directory_contents dirPath raw).Perm
      ((raw.filter
        (fun e => e.name ≠ ['.'] ∧ e.name ≠ ['.', '.'])).map (mkItem dirPath)) ∧
    (get_directory_contents dirPath raw).Pairwise (fun a b =>
      rankOf a.type < rankOf b.type ∨
        (rankOf a.type = rankOf b.type ∧ lexLt b.name a.name = false)) := by
  have hvalid : ∀ x ∈ (raw.filter
      (fun e => e.name ≠ ['.'] ∧ e.name ≠ ['.', '.'])).map (mkItem dirPath),
      validItem x := by
    intro x hx
    rcases List.mem_map.mp hx with ⟨e, -, he⟩
    exact he ▸ validItem_mkItem dirPath e
  constructor
  · exact sortItems_perm _
  · have hsorted := sortItems_sorted _ hvalid
    have hmemvalid : ∀ x ∈ get_directory_contents dirPath raw, validItem x := by
      intro x hx
      exact hvalid x ((sortItems_perm _).mem_iff.mp hx)
    refine List.Pairwise.imp_of_mem ?_ hsorted
    intro x y hx hy hxy
    have hxv := hmemvalid x hx
    have hyv := hmemvalid y hy
    have : ¬ (rankOf y.type < rankOf x.type ∨
        (rankOf y.type = rankOf x.type ∧ lexLt y.name x.name = true)) := by
      rw [← itemLt_char y x hyv hxv]
      rw [hxy]
      simp
    push_neg at this
    by_cases hlt : rankOf x.type < rankOf y.type
    · exact Or.inl hlt
    · have heq : rankOf x.type = rankOf y.type := by omega
      refine Or.inr ⟨heq, ?_⟩
      have := this.2 heq.symm
      cases hv : lexLt y.name x.name
      · rfl
      · exact absurd hv this

theorem lookupFS_setFS_eq (fs : FS) (p : Path) (n : SNode) :
    lookupFS (setFS fs p n) p = some n := by
  simp [lookupFS, setFS, List.find?]

theorem lookupFS_setFS_ne (fs : FS) (p q : Path) (n : SNode) (h : q ≠ p) :
    lookupFS (setFS fs p n) q = lookupFS fs q := by
  simp only [lookupFS, setFS, List.find?]
  rw [decide_eq_false (by simpa using fun hc => h hc.symm)]

/-- **C2** (counterexample).  With `t` a regular file with bytes `[1,2,3]`
and `s` a symlink to `t`, `FileNavigator::copy_item s d` succeeds and leaves
a **regular file** carrying the referent's bytes at `d` — not a symbolic
link — because `open(src, O_RDONLY)` follows the link.  This refutes the
claim for the navigator's copy operation. -/
theorem copy_item_symlink_counterexample :
    (copy_item_go 4 [(['t'], .file [1, 2, 3]), (['s'], .symlink ['t'])]
      ['s'] ['d'] false).2 = true ∧
    lookupFS (copy_item_go 4 [(['t'], .file [1, 2, 3]), (['s'], .symlink ['t'])]
      ['s'] ['d'] false).1 ['d'] = some (.file [1, 2, 3]) := by
  decide

/-- **C2** (amended).  `n8n_copy_file` recreates a symlink source as a new
link at the destination with the same target string, touching nothing else
and never reading the referent's content; `FileNavigator::copy_item`, by
contrast, follows the link and copies the referent's bytes to the
destination as a regular file. -/
theorem copy_symlink_behaviours (fuel : Nat) (fs : FS) (src dst t : Path)
    (c : List Nat) (options : CopyOptions)
    (hsrc : lookupFS fs src = some (.symlink t))
    (ht : lookupFS fs t = some (.file c))
    (hdst : lookupFS fs dst = none)
    (hover : options.overwrite = true)
    (hnocreate : options.createDestDir = false) :
    n8n_copy_file fuel fs src dst options =
      (setFS fs dst (.symlink t), ⟨true, 0⟩) ∧
    (∀ q, q ≠ dst → lookupFS (setFS fs dst (.symlink t)) q = lookupFS fs q) ∧
    copy_item_go (fuel + 3) fs src dst false = (setFS fs dst (.file c), true) := by
  have resolveFS_succ : ∀ (n : Nat) (p : Path), resolveFS fs (n + 1) p =
      match lookupFS fs p with
      | some (.symlink u) => resolveFS fs n u
      | _ => some p := fun n p => rfl
  refine ⟨?_, fun q hq => lookupFS_setFS_ne fs dst q _ hq, ?_⟩
  · rw [n8n_copy_file, hsrc, hover, hnocreate]
    simp [hdst]
  · have hread : readFileFS fs (fuel + 2) src = some c := by
      have h1 : resolveFS fs (fuel + 2) src = resolveFS fs (fuel + 1) t := by
        show resolveFS fs ((fuel + 1) + 1) src = _
        rw [resolveFS_succ, hsrc]
      have h2 : resolveFS fs (fuel + 1) t = some t := by
        rw [resolveFS_succ, ht]
      rw [readFileFS, h1, h2]
      show (match lookupFS fs t with
        | some (.file content) => some content
        | _ => none) = some c
      rw [ht]
    have hwrite : writeFileFS fs (fuel + 2) dst c =
        some (setFS fs dst (.file c)) := by
      have h1 : resolveFS fs (fuel + 2) dst = some dst := by
        show resolveFS fs ((fuel + 1) + 1) dst = some dst
        rw [resolveFS_succ, hdst]
      rw [writeFileFS, h1]
      show (match lookupFS fs dst with
        | some .dir => none
        | _ => some (setFS fs dst (.file c))) = some (setFS fs dst (.file c))
      rw [hdst]
    show copy_item_go ((fuel + 2) + 1) fs src dst false = _
    rw [copy_item_go, hsrc, hread]
    show (match writeFileFS fs (fuel + 2) dst c with
      | none => (fs, false)
      | some fs' => (fs', true)) = (setFS fs dst (.file c), true)
    rw [hwrite]

/-- Witness for the amended C2 on a concrete two-node filesystem. -/
theorem copy_symlink_behaviours_witness :
    (lookupFS [(['t'], SNode.file [7]), (['s'], SNode.symlink ['t'])] ['s'] =
      some (.symlink ['t'])) ∧
    (n8n_copy_file 0 [(['t'], SNode.file [7]), (['s'], SNode.symlink ['t'])]
        ['s'] ['d'] ⟨true, false, false, false, false⟩ =
      (setFS [(['t'], SNode.file [7]), (['s'], SNode.symlink ['t'])] ['d']
        (.symlink ['t']), ⟨true, 0⟩) ∧
     (∀ q, q ≠ ['d'] →
       lookupFS (setFS [(['t'], SNode.file [7]), (['s'], SNode.symlink ['t'])]
         ['d'] (.symlink ['t'])) q =
       lookupFS [(['t'], SNode.file [7]), (['s'], SNode.symlink ['t'])] q) ∧
     copy_item_go 3 [(['t'], SNode.file [7]), (['s'], SNode.symlink ['t'])]
        ['s'] ['d'] false =
      (setFS [(['t'], SNode.file [7]), (['s'], SNode.symlink ['t'])] ['d']
        (.file [7]), true)) :=
  ⟨rfl, copy_symlink_behaviours 0 _ ['s'] ['d'] ['t'] [7] _ rfl rfl rfl rfl rfl⟩

/-- **C5.** `n8n_batch_copy` attempts every pair in order: the per-item flag
list has exactly one entry per pair and the success and failure counters sum
to the number of pairs, independently of which items fail.  In particular,
the spec's five-pair scenario with only pair 3's source missing yields flags
`[true, true, false, true, true]`: 4 successes, 1 failure, pairs 4 and 5
still attempted. -/
theorem batch_copy_independent (fuel : Nat) (fs : FS)
    (pairs : List (Path × Path)) (options : CopyOptions) :
    ((n8n_batch_copy fuel fs pairs options).2.results.length = pairs.length ∧
     (n8n_batch_copy fuel fs pairs options).2.successCount +
       (n8n_batch_copy fuel fs pairs options).2.failCount = pairs.length) ∧
    (n8n_batch_copy 1
      [(['s', '1'], .file [1]), (['s', '2'], .file [2]),
       (['s', '4'], .file [4]), (['s', '5'], .file [5])]
      [(['s', '1'], ['d', '1']), (['s', '2'], ['d', '2']),
       (['s', '3'], ['d', '3']), (['s', '4'], ['d', '4']),
       (['s', '5'], ['d', '5'])]
      ⟨true, false, false, false, false⟩).2 =
      ⟨true, [true, true, false, true, true], 4, 1⟩ := by
  constructor
  · induction pairs generalizing fs with
    | nil => simp [n8n_batch_copy]
    | cons pr rest ih =>
      obtain ⟨src, dst⟩ := pr
      simp only [n8n_batch_copy, List.length_cons]
      have := ih (n8n_copy_file fuel fs src dst options).1
      constructor
      · simp [this.1]
      · rcases (n8n_copy_file fuel fs src dst options).2.success <;>
          simp <;> omega
  · decide

theorem sys_mkdir_lookup_other (fs : FS) (q r : Path) (h : r ≠ q) :
    lookupFS (sys_mkdir fs q).1 r = lookupFS fs r := by
  rw [sys_mkdir]
  split
  · rfl
  · split
    · exact lookupFS_setFS_ne fs q r .dir h
    · split
      · exact lookupFS_setFS_ne fs q r .dir h
      · split
        · exact lookupFS_setFS_ne fs q r .dir h
        · rfl
        · rfl

theorem mkdirRecStep_fst (fs' : FS) (pre : Path) :
    (mkdirRecStep (fs', none) pre).1 = (sys_mkdir fs' pre).1 := by
  rw [mkdirRecStep]
  rcases hr : sys_mkdir fs' pre with ⟨fs'', err⟩
  cases err with
  | none => rfl
  | some e =>
    show (if e = EEXIST then (fs'', none) else (fs'', some e)).1 = fs''
    split <;> rfl

theorem slashPrefixes_ne (p : Path) : ∀ pre ∈ slashPrefixes p, pre ≠ p := by
  intro pre hpre
  simp only [slashPrefixes, List.mem_filterMap, List.mem_range] at hpre
  obtain ⟨i, hi, hcond⟩ := hpre
  split at hcond
  · rename_i hc
    have hpre' : pre = p.take i := (Option.some.inj hcond).symm
    intro heq
    rw [heq] at hpre'
    have : p.length ≤ i := by
      have := congrArg List.length hpre'
      simp only [List.length_take] at this
      omega
    omega
  · cases hcond

theorem foldl_mkdirRecStep_lookup (p : Path) (pres : List Path)
    (hpres : ∀ pre ∈ pres, pre ≠ p) :
    ∀ st : FS × Option Nat, (lookupFS st.1 p).isSome = true →
    (lookupFS (pres.foldl mkdirRecStep st).1 p).isSome = true := by
  induction pres with
  | nil => intro st h; exact h
  | cons pre rest ih =>
    intro st h
    rw [List.foldl_cons]
    refine ih (fun x hx => hpres x (List.mem_cons_of_mem pre hx)) _ ?_
    rcases st with ⟨fs', err⟩
    cases err with
    | some e => exact h
    | none =>
      rw [mkdirRecStep_fst fs' pre,
        sys_mkdir_lookup_other fs' pre p
          (fun he => (hpres pre (List.mem_cons_self pre rest)) he.symm)]
      exact h

/-- **C3** (counterexample).  With a directory already present at `/d`,
`mkdir /d` reports an `EEXIST` error instead of succeeding — both without
and with the `-p` flag — refuting the claim that an existing directory is
not an error. -/
theorem mkdir_existing_dir_counterexample :
    create_directory [(['/', 'd'], SNode.dir)] ['/'] [['/', 'd']] =
      ([(['/', 'd'], SNode.dir)], .err EEXIST) ∧
    create_directory [(['/', 'd'], SNode.dir)] ['/']
        [['/', 'd'], ['-', 'p']] =
      ([(['/', 'd'], SNode.dir)], .err EEXIST) := by
  decide

/-- **C3** (amended).  `mkdir` on a path where **any** node already exists —
directory or not — reports an error rather than succeeding, in both modes:
without `-p` the result is exactly the `EEXIST` error (and the filesystem is
untouched); with `-p` an error is still reported because `mkdir_recursive`
returns the raw result of the final `mkdir`.  Creation succeeds only when
the target does not yet exist. -/
theorem mkdir_existing_fails (fs : FS) (cp p : Path) (node : SNode)
    (hp : lookupFS fs p = some node) (habs : p.head? = some '/') :
    (create_directory fs cp [p]).2 = .err EEXIST ∧
    (create_directory fs cp [p]).1 = fs ∧
    (∃ e, (create_directory fs cp [p, ['-', 'p']]).2 = .err e) := by
  have hpne : p ≠ [] := by
    intro he
    rw [he] at habs
    cases habs
  have habs' : get_absolute_path cp p = p := by
    rw [get_absolute_path, if_neg hpne, if_pos habs]
  have hsome : (lookupFS fs p).isSome = true := by rw [hp]; rfl
  have hmk : sys_mkdir fs p = (fs, some EEXIST) := by
    rw [sys_mkdir, if_pos hsome]
  refine ⟨?_, ?_, ?_⟩
  · rw [create_directory]
    simp only [habs', List.head?_nil, hmk]
    rw [if_neg (by simp)]
  · rw [create_directory]
    simp only [habs', List.head?_nil, hmk]
    rw [if_neg (by simp)]
  · rw [create_directory]
    simp only [habs', List.head?_cons]
    rw [if_pos trivial, mkdir_recursive]
    rcases hfold : (slashPrefixes p).foldl mkdirRecStep (fs, none) with ⟨fs', err⟩
    cases err with
    | some e => exact ⟨e, rfl⟩
    | none =>
      have hlook : (lookupFS fs' p).isSome = true := by
        have := foldl_mkdirRecStep_lookup p (slashPrefixes p)
          (slashPrefixes_ne p) (fs, none) hsome
        rw [hfold] at this
        exact this
      have hmk' : sys_mkdir fs' p = (fs', some EEXIST) := by
        rw [sys_mkdir, if_pos hlook]
      refine ⟨EEXIST, ?_⟩
      show (match sys_mkdir fs' p with
        | (fs'', none) => (fs'', CmdOut.ok p)
        | (fs'', some e) => (fs'', CmdOut.err e)).2 = CmdOut.err EEXIST
      rw [hmk']

/-- Witness for the amended C3: a regular file at `/f` also defeats `mkdir`. -/
theorem mkdir_existing_fails_witness :
    (lookupFS [(['/', 'f'], SNode.file [1])] ['/', 'f'] =
      some (SNode.file [1])) ∧
    ((create_directory [(['/', 'f'], SNode.file [1])] ['/'] [['/', 'f']]).2 =
      .err EEXIST ∧
     (create_directory [(['/', 'f'], SNode.file [1])] ['/'] [['/', 'f']]).1 =
      [(['/', 'f'], SNode.file [1])] ∧
     (∃ e, (create_directory [(['/', 'f'], SNode.file [1])] ['/']
        [['/', 'f'], ['-', 'p']]).2 = .err e)) :=
  ⟨rfl, mkdir_existing_fails _ ['/'] ['/', 'f'] (SNode.file [1]) rfl rfl⟩

/-! ### Navigation and removal lemmas on the tree -/
theorem lookupInDir_eq : ∀ (es : EntryList) (seg : Path) (rest : List Path),
    lookupInDir es seg rest =
      match lookupE es seg with
      | some nd => lookupT nd rest
      | none => none
  | .nil, _, _ => rfl
  | .cons m node es, seg, rest => by
    by_cases h : m = seg
    · simp [lookupInDir, lookupE, h]
    · simp [lookupInDir, lookupE, h, lookupInDir_eq es seg rest]

theorem hasName_false_lookupE : ∀ (es : EntryList) (n : Path),
    hasName es n = false → lookupE es n = none
  | .nil, _, _ => rfl
  | .cons m node rest, n, h => by
    rw [hasName] at h
    rw [lookupE]
    split at h
    · cases h
    · rename_i hm
      rw [if_neg hm]
      exact hasName_false_lookupE rest n h

theorem lookupE_removeAtE_nil : ∀ (es : EntryList) (seg : Path) (nd : TNode),
    wfE es = true → lookupE es seg = some nd →
    lookupE (removeAtE es seg []) seg = none
  | .nil, _, _, _, h => by cases h
  | .cons m node rest, seg, nd, hwf, h => by
    rw [wfE, Bool.and_eq_true, Bool.and_eq_true] at hwf
    by_cases hm : m = seg
    · rw [removeAtE, if_pos hm]
      refine hasName_false_lookupE rest seg ?_
      rw [← hm]
      simpa using hwf.1.1
    · rw [removeAtE, if_neg hm, lookupE, if_neg hm]
      rw [lookupE, if_neg hm] at h
      exact lookupE_removeAtE_nil rest seg nd hwf.2 h

theorem lookupE_removeAtE_cons :
    ∀ (es : EntryList) (seg : Path) (nd : TNode) (s : Path) (ps : List Path),
    lookupE es seg = some nd →
    lookupE (removeAtE es seg (s :: ps)) seg = some (removeAtT nd (s :: ps))
  | .nil, _, _, _, _, h => by cases h
  | .cons m node rest, seg, nd, s, ps, h => by
    by_cases hm : m = seg
    · rw [lookupE, if_pos hm] at h
      rw [removeAtE, if_pos hm]
      rw [lookupE, if_pos hm, Option.some.injEq] at *
      rw [h]
    · rw [lookupE, if_neg hm] at h
      rw [removeAtE, if_neg hm, lookupE, if_neg hm]
      exact lookupE_removeAtE_cons rest seg nd s ps h

theorem wfE_lookupE : ∀ (es : EntryList) (n : Path) (nd : TNode),
    wfE es = true → lookupE es n = some nd → wfN nd = true
  | .nil, _, _, _, h => by cases h
  | .cons m node rest, n, nd, hwf, h => by
    rw [wfE, Bool.and_eq_true, Bool.and_eq_true] at hwf
    rw [lookupE] at h
    split at h
    · rw [Option.some.injEq] at h
      rw [← h]
      exact hwf.1.2
    · exact wfE_lookupE rest n nd hwf.2 h

theorem lookupT_nil (root : TNode) : lookupT root [] = some root := by
  cases root <;> rfl

theorem wfN_lookupT (p : List Path) : ∀ (root : TNode) (nd : TNode),
    wfN root = true → lookupT root p = some nd → wfN nd = true := by
  induction p with
  | nil =>
    intro root nd hwf h
    rw [lookupT_nil, Option.some.injEq] at h
    rw [← h]
    exact hwf
  | cons seg ps ih =>
    intro root nd hwf h
    cases root with
    | file c => cases h
    | symlink t => cases h
    | dir es =>
      rw [lookupT, lookupInDir_eq] at h
      rcases he : lookupE es seg with _ | nd₀
      · rw [he] at h
        cases h
      · rw [he] at h
        exact ih nd₀ nd (wfE_lookupE es seg nd₀ hwf he) h

/-- No residue: after removing the subtree at `p`, nothing remains at `p`
or below it. -/
theorem lookupT_removeAtT (p : List Path) : ∀ (root : TNode) (es : EntryList)
    (q : List Path), p ≠ [] → lookupT root p = some (.dir es) →
    wfN root = true → lookupT (removeAtT root p) (p ++ q) = none := by
  induction p with
  | nil => intro root es q hp _ _; exact absurd rfl hp
  | cons seg ps ih =>
    intro root es q _ hlook hwf
    cases root with
    | file c => cases hlook
    | symlink t => cases hlook
    | dir es₀ =>
      rw [lookupT, lookupInDir_eq] at hlook
      rcases he : lookupE es₀ seg with _ | nd₀
      · rw [he] at hlook
        cases hlook
      · rw [he] at hlook
        have hlook' : lookupT nd₀ ps = some (.dir es) := hlook
        show lookupT (.dir (removeAtE es₀ seg ps)) (seg :: (ps ++ q)) = none
        rw [lookupT, lookupInDir_eq]
        cases ps with
        | nil =>
          rw [lookupT_nil, Option.some.injEq] at hlook'
          rw [lookupE_removeAtE_nil es₀ seg nd₀ hwf he]
        | cons s ps' =>
          rw [lookupE_removeAtE_cons es₀ seg nd₀ s ps' he]
          exact ih nd₀ es q (by simp) hlook'
            (wfE_lookupE es₀ seg nd₀ hwf he)

/-! ### The recursive delete clears everything and is depth-first -/
theorem delEntriesRun_clears : ∀ (es : EntryList),
    (delEntriesRun es).1 = .nil ∧ (delEntriesRun es).2.1 = true
  | .nil => ⟨rfl, rfl⟩
  | .cons n node rest => by
    cases node with
    | dir es' =>
      have h1 := delEntriesRun_clears es'
      have h2 := delEntriesRun_clears rest
      simp only [delEntriesRun, h1.2, if_true]
      exact ⟨h2.1, h2.2⟩
    | file c =>
      have h2 := delEntriesRun_clears rest
      exact ⟨h2.1, h2.2⟩
    | symlink t =>
      have h2 := delEntriesRun_clears rest
      exact ⟨h2.1, h2.2⟩

theorem pathOfEvent_shift (pre : List Path) (e : FsEvent) :
    pathOfEvent (shiftEvent pre e) = pre ++ pathOfEvent e := by
  cases e <;> rfl

theorem delEntriesRun_paths : ∀ (es : EntryList),
    ∀ e ∈ (delEntriesRun es).2.2, ∃ n q, pathOfEvent e = n :: q ∧
      hasName es n = true
  | .nil => by intro e he; cases he
  | .cons n node rest => by
    intro e he
    cases node with
    | dir es' =>
      have h1 := (delEntriesRun_clears es').2
      have htr : (delEntriesRun (.cons n (.dir es') rest)).2.2 =
          (delEntriesRun es').2.2.map (shiftEvent [n]) ++ [.rmdired [n]]
            ++ (delEntriesRun rest).2.2 := by
        simp [delEntriesRun, h1]
      rw [htr] at he
      rcases List.mem_append.mp he with he' | he'
      · rcases List.mem_append.mp he' with hm | hs
        · obtain ⟨e', -, rfl⟩ := List.mem_map.mp hm
          refine ⟨n, pathOfEvent e', ?_, by rw [hasName]; simp⟩
          rw [pathOfEvent_shift]
          rfl
        · have heq : e = .rmdired [n] := by simpa using hs
          rw [heq]
          exact ⟨n, [], rfl, by rw [hasName]; simp⟩
      · obtain ⟨m, q, hq, hm⟩ := delEntriesRun_paths rest e he'
        exact ⟨m, q, hq, by rw [hasName]; split <;> simp [hm]⟩
    | file c =>
      simp only [delEntriesRun, List.mem_cons] at he
      rcases he with he | he
      · rw [he]
        exact ⟨n, [], rfl, by rw [hasName]; simp⟩
      · obtain ⟨m, q, hq, hm⟩ := delEntriesRun_paths rest e he
        exact ⟨m, q, hq, by rw [hasName]; split <;> simp [hm]⟩
    | symlink t =>
      simp only [delEntriesRun, List.mem_cons] at he
      rcases he with he | he
      · rw [he]
        exact ⟨n, [], rfl, by rw [hasName]; simp⟩
      · obtain ⟨m, q, hq, hm⟩ := delEntriesRun_paths rest e he
        exact ⟨m, q, hq, by rw [hasName]; split <;> simp [hm]⟩

theorem prefix_cons_head {α : Type} {a b : α} {l1 l2 : List α}
    (h : (a :: l1) <+: (b :: l2)) : a = b := by
  obtain ⟨t, ht⟩ := h
  exact (List.cons.inj ht).1

theorem goodTrace_append (t1 t2 : List FsEvent) (h1 : goodTrace t1)
    (h2 : goodTrace t2)
    (hx : ∀ d, FsEvent.rmdired d ∈ t1 → ∀ e ∈ t2, ¬ d <+: pathOfEvent e) :
    goodTrace (t1 ++ t2) := by
  induction t1 with
  | nil => exact h2
  | cons e t ih =>
    cases e with
    | unlinked q =>
      exact ih h1 (fun d hd => hx d (List.mem_cons_of_mem _ hd))
    | rmdired d =>
      obtain ⟨hall, ht⟩ := h1
      refine ⟨?_, ih ht (fun d' hd' => hx d' (List.mem_cons_of_mem _ hd'))⟩
      intro e he
      rcases List.mem_append.mp he with he | he
      · exact hall e he
      · exact hx d (List.mem_cons_self _ _) e he

theorem goodTrace_shift (pre : List Path) (t : List FsEvent)
    (h : goodTrace t) : goodTrace (t.map (shiftEvent pre)) := by
  induction t with
  | nil => exact trivial
  | cons e t ih =>
    cases e with
    | unlinked q => exact ih h
    | rmdired d =>
      obtain ⟨hall, ht⟩ := h
      refine ⟨?_, ih ht⟩
      intro e' he'
      obtain ⟨e₀, he₀, rfl⟩ := List.mem_map.mp he'
      rw [pathOfEvent_shift]
      intro hpre
      exact hall e₀ he₀ ((List.prefix_append_right_inj pre).mp hpre)

theorem delEntriesRun_good : ∀ (es : EntryList), wfE es = true →
    goodTrace (delEntriesRun es).2.2
  | .nil, _ => trivial
  | .cons n node rest, hwf => by
    rw [wfE, Bool.and_eq_true, Bool.and_eq_true] at hwf
    have hnoname : hasName rest n = false := by
      have := hwf.1.1
      simp only [Bool.not_eq_true'] at this
      exact this
    have hrest : goodTrace (delEntriesRun rest).2.2 :=
      delEntriesRun_good rest hwf.2
    have hrestpaths : ∀ e ∈ (delEntriesRun rest).2.2,
        ∃ m q, pathOfEvent e = m :: q ∧ m ≠ n := by
      intro e he
      obtain ⟨m, q, hq, hm⟩ := delEntriesRun_paths rest e he
      refine ⟨m, q, hq, fun hmn => ?_⟩
      rw [hmn, hnoname] at hm
      cases hm
    cases node with
    | file c =>
      show goodTrace (.unlinked [n] :: (delEntriesRun rest).2.2)
      exact hrest
    | symlink t =>
      show goodTrace (.unlinked [n] :: (delEntriesRun rest).2.2)
      exact hrest
    | dir es' =>
      have h1 := (delEntriesRun_clears es').2
      have htr : (delEntriesRun (.cons n (.dir es') rest)).2.2 =
          (delEntriesRun es').2.2.map (shiftEvent [n]) ++ [.rmdired [n]]
            ++ (delEntriesRun rest).2.2 := by
        simp [delEntriesRun, h1]
      rw [htr, List.append_assoc]
      have hsub : goodTrace ((delEntriesRun es').2.2.map (shiftEvent [n])) :=
        goodTrace_shift [n] _ (delEntriesRun_good es' hwf.1.2)
      have hmid : goodTrace
          ([FsEvent.rmdired [n]] ++ (delEntriesRun rest).2.2) := by
        refine ⟨?_, hrest⟩
        intro e he
        obtain ⟨m, q, hq, hm⟩ := hrestpaths e he
        rw [hq]
        intro hp
        exact hm (prefix_cons_head hp).symm
      refine goodTrace_append _ _ hsub hmid ?_
      intro d hd e he
      obtain ⟨e₀, he₀, heq⟩ := List.mem_map.mp hd
      cases e₀ with
      | unlinked q₀ => cases heq
      | rmdired d₀ =>
        have hd' : d = n :: d₀ := by
          have : FsEvent.rmdired ([n] ++ d₀) = FsEvent.rmdired d := heq
          cases this
          rfl
        obtain ⟨m₀, q₀, hq₀, -⟩ := delEntriesRun_paths es' (.rmdired d₀) he₀
        rw [pathOfEvent] at hq₀
        rcases List.mem_append.mp he with he' | he'
        · have heq2 : e = FsEvent.rmdired [n] := by simpa using he'
          rw [heq2]
          show ¬ d <+: [n]
          rw [hd', hq₀]
          intro hp
          have hlen := hp.length_le
          simp at hlen
        · obtain ⟨m, q, hq, hm⟩ := hrestpaths e he'
          rw [hq, hd']
          intro hp
          exact hm (prefix_cons_head hp).symm

/-- **C4.** For a non-empty directory at `p`: delete **without** `recursive`
fails with the `NotEmpty` error and leaves every node unchanged (the state is
returned untouched and no removal syscall is issued); delete **with**
`recursive` succeeds, removes the entire subtree (no node remains at `p` or
below it), and its syscall trace removes every child before its parent — once
a directory is `rmdir`ed, no later syscall touches anything below it. -/
theorem delete_item_semantics (root : TNode) (p : List Path) (es : EntryList)
    (hp : p ≠ []) (hes : es ≠ .nil)
    (hlook : lookupT root p = some (.dir es)) (hwf : wfN root = true) :
    delete_item root p false = (root, .err ENOTEMPTY, []) ∧
    (delete_item root p true).1 = removeAtT root p ∧
    (delete_item root p true).2.1 = .ok ∧
    (∀ q, lookupT (delete_item root p true).1 (p ++ q) = none) ∧
    goodTrace (delete_item root p true).2.2 := by
  obtain ⟨seg, ps, rfl⟩ : ∃ seg ps, p = seg :: ps := by
    cases p with
    | nil => exact absurd rfl hp
    | cons a l => exact ⟨a, l, rfl⟩
  obtain ⟨m, nd, rest, rfl⟩ : ∃ m nd rest, es = .cons m nd rest := by
    cases es with
    | nil => exact absurd rfl hes
    | cons a b c => exact ⟨a, b, c, rfl⟩
  have hwfes : wfE (.cons m nd rest) = true :=
    wfN_lookupT (seg :: ps) root (.dir (.cons m nd rest)) hwf hlook
  have hrun := delEntriesRun_clears (.cons m nd rest)
  have hfalse : delete_item root (seg :: ps) false =
      (root, .err ENOTEMPTY, []) := by
    rw [delete_item.eq_def, hlook]
    rfl
  have htrue : delete_item root (seg :: ps) true =
      (removeAtT root (seg :: ps), .ok,
        (delEntriesRun (.cons m nd rest)).2.2.map (shiftEvent (seg :: ps)) ++
          [.rmdired (seg :: ps)]) := by
    rw [delete_item.eq_def, hlook]
    simp [hrun.2]
  refine ⟨hfalse, by rw [htrue], by rw [htrue], ?_, ?_⟩
  · intro q
    rw [htrue]
    exact lookupT_removeAtT (seg :: ps) root (.cons m nd rest) q
      (by simp) hlook hwf
  · rw [htrue]
    have hone : goodTrace [FsEvent.rmdired (seg :: ps)] := by
      show (∀ e ∈ ([] : List FsEvent),
        ¬ (seg :: ps) <+: pathOfEvent e) ∧ True
      exact ⟨fun e he => absurd he (List.not_mem_nil e), trivial⟩
    refine goodTrace_append _ _
      (goodTrace_shift _ _ (delEntriesRun_good _ hwfes)) hone ?_
    intro d hd e he
    have heq : e = FsEvent.rmdired (seg :: ps) := by simpa using he
    obtain ⟨e₀, he₀, heq₀⟩ := List.mem_map.mp hd
    cases e₀ with
    | unlinked q₀ => cases heq₀
    | rmdired d₀ =>
      have hd' : d = (seg :: ps) ++ d₀ := by
        have : FsEvent.rmdired ((seg :: ps) ++ d₀) = FsEvent.rmdired d := heq₀
        cases this
        rfl
      obtain ⟨m₀, q₀, hq₀, -⟩ :=
        delEntriesRun_paths (.cons m nd rest) (.rmdired d₀) he₀
      rw [pathOfEvent] at hq₀
      rw [heq, hd', hq₀]
      show ¬ ((seg :: ps) ++ m₀ :: q₀) <+: (seg :: ps)
      intro hpre
      have hlen := hpre.length_le
      simp at hlen

/-- Witness for C4 on the tree `/d/a` (`d` a directory containing file `a`). -/
theorem delete_item_semantics_witness :
    (([['d']] : List Path) ≠ [] ∧
     (EntryList.cons ['a'] (.file [1]) .nil) ≠ .nil ∧
     lookupT (.dir (.cons ['d'] (.dir (.cons ['a'] (.file [1]) .nil)) .nil))
       [['d']] = some (.dir (.cons ['a'] (.file [1]) .nil)) ∧
     wfN (.dir (.cons ['d'] (.dir (.cons ['a'] (.file [1]) .nil)) .nil)) =
       true) ∧
    (delete_item (.dir (.cons ['d'] (.dir (.cons ['a'] (.file [1]) .nil)) .nil))
        [['d']] false =
      (.dir (.cons ['d'] (.dir (.cons ['a'] (.file [1]) .nil)) .nil),
        .err ENOTEMPTY, []) ∧
     (delete_item (.dir (.cons ['d'] (.dir (.cons ['a'] (.file [1]) .nil)) .nil))
        [['d']] true).1 =
      removeAtT (.dir (.cons ['d'] (.dir (.cons ['a'] (.file [1]) .nil)) .nil))
        [['d']] ∧
     (delete_item (.dir (.cons ['d'] (.dir (.cons ['a'] (.file [1]) .nil)) .nil))
        [['d']] true).2.1 = .ok ∧
     (∀ q, lookupT
        (delete_item (.dir (.cons ['d'] (.dir (.cons ['a'] (.file [1]) .nil)) .nil))
          [['d']] true).1 ([['d']] ++ q) = none) ∧
     goodTrace
       (delete_item (.dir (.cons ['d'] (.dir (.cons ['a'] (.file [1]) .nil)) .nil))
         [['d']] true).2.2) :=
  ⟨⟨by simp, (by intro h; cases h), rfl, rfl⟩,
    delete_item_semantics _ [['d']] _ (by simp) (by intro h; cases h) rfl rfl⟩

end FMPro

